import Mathlib

/-!
Verification of the ultra-resolution-quads client engine.

Shallow embedding conventions:
* `Decimal` (arbitrary-precision decimal) and JS `number` (double) are both
  modelled as real numbers `ℝ`; tolerance claims become exact equalities in
  this idealized arithmetic.
* JS `BigInt` (arbitrary-width integers) is modelled as `ℤ`.
* DOM side effects (CSS classes, badges, element references) and logging are
  outside the model; only the data state they mirror is embedded.

Sources embedded below:
* the camera-path sampler (shared camera path module: `normalizeCamera`,
  `visualDist`, `createLine`, `createCorner`, `buildSampler`,
  `resolveCameraMacros`);
* the visible-tile selector (shared view utils: `getVisibleTilesForLevel`);
* `frontend/main.js`: `RequestManager` (request / dispatch / process /
  complete / prune), `pan`, `loadDataset` precision policy, and the
  `renderLoop` / `updateLayer` target-tile computation.
-/

namespace Quads

/-- Canonical camera: `{globalLevel, x, y, rotation}`.  `x`, `y` are Decimal
in the source (modelled as `ℝ`); `globalLevel` and `rotation` are doubles. -/
structure Camera where
  globalLevel : ℝ
  x : ℝ
  y : ℝ
  rotation : ℝ

instance : Inhabited Camera := ⟨⟨0, 0, 0, 0⟩⟩

/-- `clamp01` from the shared camera-path module (and the Decimal branch of
`clamp01` in `frontend/main.js`): clamp a Decimal into `[0, 1]`. -/
noncomputable def clamp01 (v : ℝ) : ℝ :=
  if v < 0 then 0 else if 1 < v then 1 else v

/-- Logical tile size constant from `frontend/main.js`
(`LOGICAL_TILE_SIZE = 512`). -/
def LOGICAL_TILE_SIZE : ℝ := 512

/-- `pan(dx, dy)` from `frontend/main.js`: move the camera by a pixel delta,
rotating the delta into world space and scaling by world units per pixel. -/
noncomputable def pan (dx dy : ℝ) (cam : Camera) : Camera :=
  let scale : ℝ := (2 : ℝ) ^ cam.globalLevel
  let worldPerPixel : ℝ := 1 / (scale * LOGICAL_TILE_SIZE)
  let r := cam.rotation
  let dx_w := dx * Real.cos r - dy * Real.sin r
  let dy_w := dx * Real.sin r + dy * Real.cos r
  { cam with
    x := clamp01 (cam.x - worldPerPixel * dx_w)
    y := clamp01 (cam.y - worldPerPixel * dy_w) }

/-- `zoom(amount)` from `frontend/main.js`. -/
noncomputable def zoom (amount : ℝ) (cam : Camera) : Camera :=
  { cam with globalLevel := max 0 (cam.globalLevel + amount) }

/-! ### Visible-tile selector (`getVisibleTilesForLevel`, shared view utils)

Tile indices are JS `BigInt`s (serialized to decimal strings in the result);
we model them as `ℤ`.  The JS expression `(1n << BigInt(targetLevel)) - 1n`
uses BigInt shift semantics: a negative shift count floors towards `-∞`, so
for `targetLevel < 0` the shift yields `0n` and the limit is `-1n`. -/

structure Tile where
  level : ℤ
  x : ℤ
  y : ℤ
  relX : ℝ
  relY : ℝ

structure VisibleResult where
  minX : ℤ
  maxX : ℤ
  minY : ℤ
  maxY : ℤ
  tiles : List Tile

/-- The symmetric integer range `[-r, r]` swept by the selector loops
(empty when `r < 0`). -/
def intRangeSym (r : ℤ) : List ℤ :=
  (List.range (2 * r + 1).toNat).map (fun i => -r + (i : ℤ))

/-- `1n << BigInt(t)` for a JS BigInt shift: negative shift counts floor to
zero for a shiftee of `1n`. -/
def jsShl1 (t : ℤ) : ℤ :=
  if 0 ≤ t then 2 ^ t.toNat else 0

/-- Accumulator of the selector sweep: running min/max trackers (initialised
to `null` in the source) and the tiles pushed so far. -/
structure SweepAcc where
  minX? : Option ℤ
  maxX? : Option ℤ
  minY? : Option ℤ
  maxY? : Option ℤ
  tiles : List Tile

def updMin (o : Option ℤ) (v : ℤ) : Option ℤ :=
  some (match o with | none => v | some m => if v < m then v else m)

def updMax (o : Option ℤ) (v : ℤ) : Option ℤ :=
  some (match o with | none => v | some m => if m < v then v else m)

/-- The quantities `getVisibleTilesForLevel` derives from its arguments
before the sweep loops (steps 1–2 of the algorithm). -/
structure SweepCtx where
  radiusInTiles : ℝ
  searchRadius : ℤ
  radiusSq : ℝ
  centerTx_bi : ℤ
  centerTy_bi : ℤ
  offsetX : ℝ
  offsetY : ℝ
  limit : ℤ
  targetLevel : ℤ

/-- The screen-space and anchor setup of `getVisibleTilesForLevel`. -/
noncomputable def mkSweepCtx (camera : Camera) (targetLevel : ℤ)
    (viewWidth viewHeight tileSize : ℝ) : SweepCtx :=
  let viewRadiusPx := Real.sqrt ((viewWidth / 2) ^ 2 + (viewHeight / 2) ^ 2)
  let zoomDiff := camera.globalLevel - (targetLevel : ℝ)
  let displayScale := (2 : ℝ) ^ zoomDiff
  let tileSizeOnScreen := tileSize * displayScale
  let radiusInTiles := viewRadiusPx / tileSizeOnScreen
  let levelScale := (2 : ℝ) ^ targetLevel
  let centerTx := camera.x * levelScale
  let centerTy := camera.y * levelScale
  let centerTx_bi : ℤ := ⌊centerTx⌋
  let centerTy_bi : ℤ := ⌊centerTy⌋
  { radiusInTiles := radiusInTiles
    searchRadius := ⌈radiusInTiles⌉
    radiusSq := (radiusInTiles + 0.75) ^ 2
    centerTx_bi := centerTx_bi
    centerTy_bi := centerTy_bi
    offsetX := centerTx - (centerTx_bi : ℝ)
    offsetY := centerTy - (centerTy_bi : ℝ)
    limit := jsShl1 targetLevel - 1
    targetLevel := targetLevel }

/-- The bounding-circle acceptance test of the sweep for candidate
`(dx, dy)`: `distX2 + distY * distY < radiusSq`. -/
def circlePass (ctx : SweepCtx) (dx dy : ℤ) : Prop :=
  ((dx : ℝ) + 0.5 - ctx.offsetX) * ((dx : ℝ) + 0.5 - ctx.offsetX) +
      ((dy : ℝ) + 0.5 - ctx.offsetY) * ((dy : ℝ) + 0.5 - ctx.offsetY) <
    ctx.radiusSq

/-- The index-range test of the sweep: the reconstructed tile index lies in
`[0, limit]` on both axes (the source `continue`s on its negation
`x < 0n || x > limit || y < 0n || y > limit`). -/
def inBounds (ctx : SweepCtx) (dx dy : ℤ) : Prop :=
  ¬(ctx.centerTx_bi + dx < 0 ∨ ctx.centerTx_bi + dx > ctx.limit ∨
    ctx.centerTy_bi + dy < 0 ∨ ctx.centerTy_bi + dy > ctx.limit)

/-- The column pre-check of the outer loop:
`distX2 > radiusSq && Math.abs(distX) > radiusInTiles + 1` skips the inner
loop. -/
def skipColumn (ctx : SweepCtx) (dx : ℤ) : Prop :=
  ((dx : ℝ) + 0.5 - ctx.offsetX) * ((dx : ℝ) + 0.5 - ctx.offsetX) >
      ctx.radiusSq ∧
    |(dx : ℝ) + 0.5 - ctx.offsetX| > ctx.radiusInTiles + 1

/-- The tile record pushed for an accepted candidate `(dx, dy)`. -/
noncomputable def mkTile (ctx : SweepCtx) (dx dy : ℤ) : Tile :=
  ⟨ctx.targetLevel, ctx.centerTx_bi + dx, ctx.centerTy_bi + dy,
    (dx : ℝ) - ctx.offsetX, (dy : ℝ) - ctx.offsetY⟩

open Classical in
/-- Body of the inner `dy` loop of the sweep (branches reordered from the
source's early `continue` into positive form). -/
noncomputable def dyStep (ctx : SweepCtx) (dx : ℤ) (acc : SweepAcc) (dy : ℤ) :
    SweepAcc :=
  if circlePass ctx dx dy then
    if inBounds ctx dx dy then
      { minX? := updMin acc.minX? (ctx.centerTx_bi + dx)
        maxX? := updMax acc.maxX? (ctx.centerTx_bi + dx)
        minY? := updMin acc.minY? (ctx.centerTy_bi + dy)
        maxY? := updMax acc.maxY? (ctx.centerTy_bi + dy)
        tiles := acc.tiles ++ [mkTile ctx dx dy] }
    else acc
  else acc

open Classical in
/-- Body of the outer `dx` loop: the column pre-check, then the inner sweep
over `dy`. -/
noncomputable def dxStep (ctx : SweepCtx) (acc : SweepAcc) (dx : ℤ) :
    SweepAcc :=
  if skipColumn ctx dx then acc
  else (intRangeSym ctx.searchRadius).foldl (dyStep ctx dx) acc

/-- The full relative sweep (step 3 of the algorithm). -/
noncomputable def sweep (ctx : SweepCtx) : SweepAcc :=
  (intRangeSym ctx.searchRadius).foldl (dxStep ctx) ⟨none, none, none, none, []⟩

/-- `getVisibleTilesForLevel(camera, targetLevel, viewWidth, viewHeight,
tileSize)` from the shared view utils (Decimal/BigInt version): bounding-circle
sweep around the camera's tile-unit position at the target level. -/
noncomputable def getVisibleTilesForLevel (camera : Camera) (targetLevel : ℤ)
    (viewWidth viewHeight tileSize : ℝ) : VisibleResult :=
  let ctx := mkSweepCtx camera targetLevel viewWidth viewHeight tileSize
  let acc := sweep ctx
  { minX := acc.minX?.getD ctx.centerTx_bi
    maxX := acc.maxX?.getD ctx.centerTx_bi
    minY := acc.minY?.getD ctx.centerTy_bi
    maxY := acc.maxY?.getD ctx.centerTy_bi
    tiles := acc.tiles }

/-! ### Render-loop target tiles (`updateLayer` / `renderLoop`,
`frontend/main.js`)

`targetTiles` is a `Map` keyed by `datasetId|level|x|y`; since a single
`updateLayer` call never produces two tiles with the same `(x, y)` and the
three calls use distinct levels, no key is ever overwritten and the map is
modelled as the list of inserted entries.  The manifest is the
`state.availableTiles` set of `level/x/y` keys. -/

structure TargetEntry where
  level : ℤ
  x : ℤ
  y : ℤ
  tx : ℝ
  ty : ℝ
  scale : ℝ
  opacity : ℝ
  zIndex : ℤ

open Classical in
/-- One iteration of the `visible.tiles.forEach` body of `updateLayer`: skip
the tile when static rendering is manifest-gated and the key is absent,
otherwise insert the target entry for it. -/
noncomputable def layerStep (liveRender : Bool) (manifest : List (ℤ × ℤ × ℤ))
    (level : ℤ) (opacity displayScale tileSizeOnScreen centerX centerY : ℝ)
    (a : List TargetEntry) (t : Tile) : List TargetEntry :=
  if liveRender = false ∧ manifest ≠ [] ∧ (level, t.x, t.y) ∉ manifest then a
  else a ++ [{ level := level, x := t.x, y := t.y
               tx := centerX + t.relX * tileSizeOnScreen
               ty := centerY + t.relY * tileSizeOnScreen
               scale := displayScale, opacity := opacity
               zIndex := level }]

open Classical in
/-- `updateLayer(level, opacity, targetTiles)` from `frontend/main.js`. -/
noncomputable def updateLayer (cam : Camera) (viewW viewH : ℝ)
    (liveRender : Bool) (manifest : List (ℤ × ℤ × ℤ)) (level : ℤ)
    (opacity : ℝ) (acc : List TargetEntry) : List TargetEntry :=
  if opacity ≤ 0.001 then acc
  else
    (getVisibleTilesForLevel cam level viewW viewH LOGICAL_TILE_SIZE).tiles.foldl
      (layerStep liveRender manifest level opacity
        ((2 : ℝ) ^ (cam.globalLevel - (level : ℝ)))
        (LOGICAL_TILE_SIZE * (2 : ℝ) ^ (cam.globalLevel - (level : ℝ)))
        (viewW / 2) (viewH / 2))
      acc

/-- The target-tile computation of `renderLoop` (`frontend/main.js`): parent
layer at opacity `1.0` when `baseLevel > 0`, base layer at `1.0`, child layer
at the fractional part of the global level. -/
noncomputable def computeTargetTiles (cam : Camera) (viewW viewH : ℝ)
    (liveRender : Bool) (manifest : List (ℤ × ℤ × ℤ)) : List TargetEntry :=
  let baseLevel : ℤ := ⌊cam.globalLevel⌋
  let childOpacity : ℝ := cam.globalLevel - (baseLevel : ℝ)
  let t0 : List TargetEntry := []
  let t1 := if 0 < baseLevel then
      updateLayer cam viewW viewH liveRender manifest (baseLevel - 1) 1 t0
    else t0
  let t2 := updateLayer cam viewW viewH liveRender manifest baseLevel 1 t1
  updateLayer cam viewW viewH liveRender manifest (baseLevel + 1) childOpacity t2

/-! ### Dataset-load precision policy (`loadDataset`, `frontend/main.js`) -/

/-- Macro tags a path keyframe may carry (`camera.macro` strings). -/
inductive MacroTag where
  | global
  | mandelbrot
  | mandelbrotPoint
  | mb
  | unknown
  deriving DecidableEq

/-- A raw (unresolved) keyframe camera as read from JSON: each field is
present or absent; numeric strings are already modelled as their values. -/
structure RawCam where
  globalLevel : Option ℝ := none
  level : Option ℝ := none
  zoomOffset : Option ℝ := none
  x : Option ℝ := none
  y : Option ℝ := none
  rotation : Option ℝ := none
  globalX : Option ℝ := none
  globalY : Option ℝ := none
  re : Option ℝ := none
  im : Option ℝ := none
  tag : Option MacroTag := none

/-- The keyframe-level extraction in `loadDataset`: `globalLevel` when it is
a number, else `level + (zoomOffset || 0)`, else `0`. -/
def kfLevel (c : RawCam) : ℝ :=
  match c.globalLevel with
  | some g => g
  | none =>
    match c.level with
    | some l => l + c.zoomOffset.getD 0
    | none => 0

/-- Dataset configuration slice consumed by the precision policy:
`render_config.max_level` (when present as a number) and the embedded path
keyframes (empty list when no path). -/
structure DatasetCfg where
  maxLevelCfg : Option ℝ
  keyframes : List RawCam

open Classical in
/-- The `maxLevel` computation in `loadDataset`: start from the configured
`max_level` (default `20`), raise by every keyframe level that exceeds it. -/
noncomputable def computeMaxLevel (cfg : DatasetCfg) : ℝ :=
  cfg.keyframes.foldl
    (fun m kf => if m < kfLevel kf then kfLevel kf else m)
    (cfg.maxLevelCfg.getD 20)

/-- `neededPrecision = Math.max(50, Math.ceil(maxLevel * 0.35 + 20))` from
`loadDataset`. -/
noncomputable def neededPrecision (cfg : DatasetCfg) : ℤ :=
  max 50 ⌈computeMaxLevel cfg * 0.35 + 20⌉

/-- The working Decimal precision after a sequence of `loadDataset` calls:
each load overwrites the process-wide precision with `neededPrecision`
(`Decimal.set({ precision: neededPrecision })`), ignoring the prior value. -/
noncomputable def precisionAfterLoads (cfgs : List DatasetCfg) (init : ℤ) : ℤ :=
  cfgs.foldl (fun _prev cfg => neededPrecision cfg) init

/-! ### Request manager (`RequestManager`, `frontend/main.js`)

State machine model of the two-lane scheduler.  DOM badge bookkeeping
(`liveQueuedClass`, `updateQueuePositions`, `clearQueueClass`), the manifest
admission on live success, and the worker-id table are outside the model;
the priority sort performed at the top of `process()` depends on the last
recorded camera/view and is modelled as an arbitrary permutation of the
queue supplied with the process event.  A live dispatch with a missing
element/URL synchronously self-completes in the source; that completion is
modelled as an ordinary complete event. -/

/-- Request lanes: `live` (backend render) and `worker` (static decode). -/
inductive Lane where
  | live
  | worker
  deriving DecidableEq

/-- Lane-specific options retained by the model (the retry delay; DOM
element / URL fields are outside the model). -/
structure ReqOptions where
  retryDelayMs : Option ℕ
  deriving DecidableEq

inductive ReqStatus where
  | queued
  | dispatched
  deriving DecidableEq

structure Request where
  id : String
  lane : Lane
  status : ReqStatus
  options : ReqOptions
  deriving DecidableEq

/-- Scheduler state: the pending queue, the `activeRequests` map (as a
list), the per-lane in-flight counts (`activeCounts`, kept as integers to
express non-negativity), and the single-live guard `liveInFlight`. -/
structure RMState where
  queue : List Request
  active : List Request
  liveCount : ℤ
  workerCount : ℤ
  liveInFlight : Option String

/-- `this.limits = { live: 1, worker: 6 }`. -/
def limits : Lane → ℤ
  | .live => 1
  | .worker => 6

def RMState.count (s : RMState) : Lane → ℤ
  | .live => s.liveCount
  | .worker => s.workerCount

def incCount (lane : Lane) (s : RMState) : RMState :=
  match lane with
  | .live => { s with liveCount := s.liveCount + 1 }
  | .worker => { s with workerCount := s.workerCount + 1 }

/-- `if (this.activeCounts[lane] > 0) this.activeCounts[lane]--`. -/
def decCountGuard (lane : Lane) (s : RMState) : RMState :=
  match lane with
  | .live => if 0 < s.liveCount then { s with liveCount := s.liveCount - 1 } else s
  | .worker =>
    if 0 < s.workerCount then { s with workerCount := s.workerCount - 1 } else s

def initRM : RMState := ⟨[], [], 0, 0, none⟩

/-- `dispatch(req)`: the scheduler-state effect of dispatching.  For the
live lane the fetch is started and `liveInFlight` is set; for the worker
lane a decode job is posted.  (Asynchronous outcomes arrive as complete
events.) -/
def dispatchM (req : Request) (s : RMState) : RMState :=
  match req.lane with
  | .live => { s with liveInFlight := some req.id }
  | .worker => s

/-- The dispatch loop of `process()`: walk the queue once, dispatching each
entry whose lane has capacity (skipping live entries while a different live
request is in flight); entries not dispatched stay queued in order. -/
def processGo (s : RMState) : List Request → RMState
  | [] => s
  | req :: rest =>
    if req.lane = .live ∧ s.liveInFlight ≠ none ∧ s.liveInFlight ≠ some req.id
    then processGo { s with queue := s.queue ++ [req] } rest
    else if s.count req.lane < limits req.lane then
      let dispatched := { req with status := .dispatched }
      processGo
        (dispatchM req (incCount req.lane { s with active := s.active ++ [dispatched] }))
        rest
    else processGo { s with queue := s.queue ++ [req] } rest

/-- `process()` without its leading priority sort (the sort is modelled as
the permutation attached to the process event). -/
def processM (s : RMState) : RMState :=
  processGo { s with queue := [] } s.queue

/-- `request(datasetId, level, x, y, options)` (identity abstracted to the
`datasetId|level|x|y` string key): already-active ids are ignored (rebind
only touches DOM fields), queued live duplicates merge options, otherwise
the request is appended and `process()` runs. -/
def requestM (id : String) (lane : Lane) (opts : ReqOptions) (s : RMState) :
    RMState :=
  if s.active.any (fun r => r.id = id) then s
  else if s.queue.any (fun r => r.id = id) then
    { s with queue := s.queue.map (fun r =>
        if r.id = id ∧ r.lane = .live ∧ lane = .live then
          { r with options := opts } else r) }
  else processM { s with queue := s.queue ++ [⟨id, lane, .queued, opts⟩] }

/-- `complete(tileId, success)`: free the slot (guarded decrement), clear
`liveInFlight` when it held this id, then `process()`.  The only
success-dependent effect in the source is manifest admission, which is
outside this model. -/
def completeM (id : String) (_success : Bool) (s : RMState) : RMState :=
  match s.active.find? (fun r => r.id = id) with
  | none => processM s
  | some req =>
    let s1 := { s with active := s.active.filter (fun r => ¬(r.id = id)) }
    let s2 := decCountGuard req.lane s1
    let s3 :=
      if req.lane = .live ∧ s.liveInFlight = some id then
        { s2 with liveInFlight := none }
      else s2
    processM s3

/-- `prune(camera, viewSize)`: keep only queue entries whose key is in the
allow-list computed from the selector (the list is abstracted as event
data). -/
def pruneM (valid : List String) (s : RMState) : RMState :=
  { s with queue := s.queue.filter (fun r => valid.contains r.id) }

/-- External interactions with the scheduler. -/
inductive RMEvent where
  | request (id : String) (lane : Lane) (opts : ReqOptions)
  | processEv (sorted : List Request)
  | complete (id : String) (success : Bool)
  | prune (valid : List String)

def stepRM (s : RMState) : RMEvent → RMState
  | .request id lane opts => requestM id lane opts s
  | .processEv sorted =>
    processM (if sorted.Perm s.queue then { s with queue := sorted } else s)
  | .complete id success => completeM id success s
  | .prune valid => pruneM valid s

/-- A run of the scheduler from the initial state. -/
def runRM (evs : List RMEvent) : RMState :=
  evs.foldl stepRM initRM

/-- The lane-limit invariant of P13. -/
def laneInv (s : RMState) : Prop :=
  0 ≤ s.liveCount ∧ s.liveCount ≤ 1 ∧ 0 ≤ s.workerCount ∧ s.workerCount ≤ 6

/-- `retryDelay = opts.retryDelayMs ?? 200` in `dispatch`. -/
def retryDelayOf (opts : ReqOptions) : ℕ :=
  opts.retryDelayMs.getD 200

/-- `const retryReq = { ...req, status: 'QUEUED' }`. -/
def retryRequest (req : Request) : Request :=
  { req with status := .queued }

/-- The synchronous part of the live-lane 503/network-error handler:
`complete(req.id, false)` followed by `scheduleRetry`'s removal of any
queued copy of the id (the timer is then armed with `retryDelayOf`). -/
def liveRetrySchedule (req : Request) (s : RMState) : RMState :=
  let s1 := completeM req.id false s
  { s1 with queue := s1.queue.filter (fun r => ¬(r.id = req.id)) }

/-- Timer expiry of the retry: `this.queue.unshift(retryReq)` (the
subsequent `process()` call is a separate step). -/
def liveRetryFire (req : Request) (s : RMState) : RMState :=
  { s with queue := retryRequest req :: s.queue }

/-- Concrete camera for the C2 counterexample: `globalLevel = 0`,
`(x, y) = (1/2, 1/2)`, no rotation. -/
noncomputable def camHalf : Camera := ⟨0, 1/2, 1/2, 0⟩

/-! ### Camera-path sampler (shared camera path module)

`Decimal` values and doubles are both `ℝ`; the native-`Math.pow` fast path
of `visualDist` (taken for `|l_ref| < 1000`) computes the same real value as
the `Decimal.pow` fallback, so the branch collapses in the model.  The
deep-zoom pre-pass (`euclideanDist`, `deepZoomFlags`) only feeds the ignored
`_ignoredDeepZoomFlag` parameter of `createLine` and is omitted. -/

/-- `toDec` inside `normalizeCamera`: numbers and strings convert, anything
else falls back to `0.5`. -/
noncomputable def toDec (v : Option ℝ) : ℝ := v.getD 0.5

/-- `normalizeCamera(cam)`: canonical Decimal camera; `globalLevel` from
`globalLevel` or `level + zoomOffset`, positions clamped to `[0, 1]`. -/
noncomputable def normalizeCamera (cam : RawCam) : Camera :=
  { globalLevel :=
      match cam.globalLevel with
      | some g => g
      | none => cam.level.getD 0 + cam.zoomOffset.getD 0
    x := clamp01 (toDec cam.x)
    y := clamp01 (toDec cam.y)
    rotation := cam.rotation.getD 0 }

/-- `resolveGlobalMacro(cam)`: use `globalX`/`globalY` as the position when
both are present. -/
noncomputable def resolveGlobalMacro (cam : RawCam) : Option Camera :=
  match cam.globalX, cam.globalY with
  | some gx, some gy =>
    some (normalizeCamera { cam with x := some gx, y := some gy })
  | _, _ => none

/-- `resolveMandelbrotMacro(cam)`: map `(re, im)` through the fractal
bounding rectangle centered at `(-0.75, 0)` with width/height `3.0`,
inverting `y`. -/
noncomputable def resolveMandelbrotMacro (cam : RawCam) : Option Camera :=
  match cam.re, cam.im with
  | some re, some im =>
    let minRe : ℝ := -0.75 - 3.0 / 2
    let maxIm : ℝ := 0.0 + 3.0 / 2
    let gx := (re - minRe) / 3.0
    let gy := (maxIm - im) / 3.0
    some (normalizeCamera { cam with x := some gx, y := some gy })
  | _, _ => none

/-- `resolveCameraMacros(cam)`: mandelbrot-family tags first, then the
global macro (also triggered by the presence of both `globalX` and
`globalY`), finally plain normalization. -/
noncomputable def resolveCameraMacros (cam : RawCam) : Camera :=
  let mres :=
    if cam.tag = some .mandelbrot ∨ cam.tag = some .mandelbrotPoint ∨
        cam.tag = some .mb
    then resolveMandelbrotMacro cam else none
  match mres with
  | some res => res
  | none =>
    let gres :=
      if cam.tag = some .global ∨ (cam.globalX.isSome ∧ cam.globalY.isSome)
      then resolveGlobalMacro cam else none
    match gres with
    | some res => res
    | none => normalizeCamera cam

/-- `visualDist(p1, p2)`: the perceptual metric; lateral deltas are scaled
by `2^min(levels)`. -/
noncomputable def visualDist (p1 p2 : Camera) : ℝ :=
  let l_ref := min p1.globalLevel p2.globalLevel
  let scale := (2 : ℝ) ^ l_ref
  let dx := (p1.x - p2.x) * scale
  let dy := (p1.y - p2.y) * scale
  let dl := p1.globalLevel - p2.globalLevel
  let dr := p1.rotation - p2.rotation
  Real.sqrt (dx * dx + dy * dy + dl * dl + dr * dr)

/-- `createLine(p1, p2).eval(t)`: linear level/rotation, swoop
width-interpolated position (falling back to `s = t` for a pure pan where
`w2 - w1 = 0`). -/
noncomputable def lineEval (p1 p2 : Camera) (t : ℝ) : Camera :=
  let w1 := (2 : ℝ) ^ (-p1.globalLevel)
  let w2 := (2 : ℝ) ^ (-p2.globalLevel)
  let wDelta := w2 - w1
  let dLvl := p1.globalLevel + (p2.globalLevel - p1.globalLevel) * t
  let rot := p1.rotation + (p2.rotation - p1.rotation) * t
  let s := if wDelta = 0 then t else ((2 : ℝ) ^ (-dLvl) - w1) / wDelta
  { globalLevel := dLvl
    x := p1.x + (p2.x - p1.x) * s
    y := p1.y + (p2.y - p1.y) * s
    rotation := rot }

/-- `createCorner(p0, p1, p2).eval(t)`: quadratic Bezier blend. -/
noncomputable def cornerEval (p0 p1 p2 : Camera) (t : ℝ) : Camera :=
  let b0 := (1 - t) * (1 - t)
  let b1 := (1 - t) * t * 2
  let b2 := t * t
  { globalLevel := p0.globalLevel * b0 + p1.globalLevel * b1 +
      p2.globalLevel * b2
    x := p0.x * b0 + p1.x * b1 + p2.x * b2
    y := p0.y * b0 + p1.y * b1 + p2.y * b2
    rotation := p0.rotation * b0 + p1.rotation * b1 + p2.rotation * b2 }

/-- Path primitives (`Primitive = Line | Corner`). -/
inductive Primitive where
  | line (p1 p2 : Camera)
  | corner (p0 p1 p2 : Camera)

instance : Inhabited Primitive := ⟨.line default default⟩

noncomputable def Primitive.eval : Primitive → ℝ → Camera
  | .line p1 p2, t => lineEval p1 p2 t
  | .corner p0 p1 p2, t => cornerEval p0 p1 p2 t

def Primitive.isCorner : Primitive → Bool
  | .corner _ _ _ => true
  | _ => false

/-- Raw segment length with the `d < 1e-9` floor applied in the pre-pass. -/
noncomputable def segLen (a b : Camera) : ℝ :=
  max (visualDist a b) (1e-9 : ℝ)

/-- `CORNER_RATIO = 0.5` and `MAX_CORNER_RADIUS = 4.0`. -/
noncomputable def cornerRadius (len nextLen : ℝ) : ℝ :=
  min (min len nextLen * 0.5) 4.0

/-- Phase 1 of `buildSampler`: keyframes to primitives.  `cur` is the
running `currentP`; the remaining keyframe list starts at the current
segment.  The final segment emits a plain line; interior keyframes emit the
incoming filleted line plus the Bezier corner. -/
noncomputable def goPrims (cur : Camera) : List Camera → List Primitive
  | a :: b :: c :: tl =>
    let len := segLen a b
    let nextLen := segLen b c
    let radius := cornerRadius len nextLen
    let t_in := 1 - radius / len
    let qIn := lineEval a b t_in
    let t_out := radius / nextLen
    let qOut := lineEval b c t_out
    .line cur qIn :: .corner qIn b qOut :: goPrims qOut (b :: c :: tl)
  | _ :: b :: [] => [.line cur b]
  | _ => []

/-- `SAMPLES_PER_PRIM = 2000`. -/
def SAMPLES_PER_PRIM : ℕ := 2000

/-- Cumulative visual length of the first `m` sample intervals of a
primitive sampled at `n` equal-`t` steps. -/
noncomputable def partialLen (prim : Primitive) (n : ℕ) : ℕ → ℝ
  | 0 => 0
  | m + 1 => partialLen prim n m +
      visualDist (prim.eval ((m : ℝ) / (n : ℝ)))
        (prim.eval (((m + 1 : ℕ) : ℝ) / (n : ℝ)))

/-- The LUT rows contributed by the primitive at index `k`, starting from
cumulative distance `d0`: `(k + (j+1)/n, d0 + partialLen (j+1))` for
`j = 0 .. n-1`. -/
noncomputable def primLut (prim : Primitive) (n k : ℕ) (d0 : ℝ) :
    List (ℝ × ℝ) :=
  (List.range n).map (fun j =>
    ((k : ℝ) + ((j + 1 : ℕ) : ℝ) / (n : ℝ), d0 + partialLen prim n (j + 1)))

/-- Phase 2 of `buildSampler`: walk the primitives accumulating the LUT,
the total length, and the keyframe stops (a stop after every corner and
after the final primitive). -/
noncomputable def phase2 (n : ℕ) :
    List Primitive → ℕ → ℝ → List (ℝ × ℝ) × ℝ × List ℝ
  | [], _, acc => ([], acc, [])
  | p :: tl, k, acc =>
    let here := primLut p n k acc
    let acc' := acc + partialLen p n n
    let rest := phase2 n tl (k + 1) acc'
    (here ++ rest.1, rest.2.1,
      (if p.isCorner ∨ tl.isEmpty then [acc'] else []) ++ rest.2.2)

/-- Distance component of a LUT row (out-of-range reads yield the padding
row `(0, 0)`; the evaluator only indexes in range). -/
noncomputable def lutDist (lut : List (ℝ × ℝ)) (i : ℕ) : ℝ :=
  (lut.getD i (0, 0)).2

/-- Parameter component of a LUT row. -/
noncomputable def lutT (lut : List (ℝ × ℝ)) (i : ℕ) : ℝ :=
  (lut.getD i (0, 0)).1

open Classical in
/-- The binary search of `cameraAtProgress`: narrow `[low, high]` to the
first row whose distance reaches the target. -/
noncomputable def bsearch (lut : List (ℝ × ℝ)) (target : ℝ)
    (low high : ℕ) : ℕ :=
  if _h : low < high then
    if lutDist lut ((low + high) / 2) < target then
      bsearch lut target ((low + high) / 2 + 1) high
    else bsearch lut target low ((low + high) / 2)
  else low
termination_by high - low
decreasing_by
  · omega
  · omega

open Classical in
/-- The body of `cameraAtProgress(p)` for a built sampler: clamp `p`,
binary-search the LUT, interpolate the global parameter, split it into
primitive index and local `t` (clamping past-the-end), evaluate, and clamp
the position. -/
noncomputable def evalAtProgress (prims : List Primitive)
    (lut : List (ℝ × ℝ)) (total : ℝ) (p : ℝ) : Camera :=
  let p_clamped := min 1 (max 0 p)
  let targetDist := p_clamped * total
  let idx := bsearch lut targetDist 0 (lut.length - 1)
  if idx = 0 then (prims.getD 0 default).eval 0
  else
    let p0 := lut.getD (idx - 1) (0, 0)
    let p1 := lut.getD idx (0, 0)
    let denom := if p1.2 - p0.2 = 0 then (1e-9 : ℝ) else p1.2 - p0.2
    let ratio := (targetDist - p0.2) / denom
    let globalT := p0.1 + ratio * (p1.1 - p0.1)
    let primIdx0 : ℤ := ⌊globalT⌋
    let localT0 := globalT - (primIdx0 : ℝ)
    let primIdx : ℤ :=
      if (prims.length : ℤ) ≤ primIdx0 then (prims.length : ℤ) - 1
      else primIdx0
    let localT : ℝ :=
      if (prims.length : ℤ) ≤ primIdx0 then 1 else localT0
    let c := (prims.getD primIdx.toNat default).eval localT
    { globalLevel := c.globalLevel
      x := clamp01 c.x
      y := clamp01 c.y
      rotation := c.rotation }

/-- The sampler object returned by `buildSampler`.  The empty-path branch
of the source returns an object without `totalLength`/`stops`; the model
fills those fields with `0`/`[]`. -/
structure Sampler where
  cameraAtProgress : ℝ → Option Camera
  totalLength : ℝ
  stops : List ℝ

/-- `buildSampler(path)`: macro-resolve the keyframes, then dispatch on
their count (null sampler / constant sampler / full pipeline). -/
noncomputable def buildSampler (keyframes : List RawCam) : Sampler :=
  match keyframes.map resolveCameraMacros with
  | [] => { cameraAtProgress := fun _ => none, totalLength := 0, stops := [] }
  | [c] =>
    { cameraAtProgress := fun _ => some c, totalLength := 0, stops := [0] }
  | c :: rest =>
    let prims := goPrims c (c :: rest)
    let ph := phase2 SAMPLES_PER_PRIM prims 0 0
    let lut := (0, 0) :: ph.1
    { cameraAtProgress := fun p =>
        some (evalAtProgress prims lut ph.2.1 p)
      totalLength := ph.2.1
      stops := 0 :: ph.2.2 }

/-- The camera at the `i`-th LUT row (row `0` is the start of the first
primitive; row `k*n + j + 1` is the primitive-`k` sample at
`t = (j+1)/n`). -/
noncomputable def sampleAt (prims : List Primitive) (n : ℕ) : ℕ → Camera
  | 0 => (prims.getD 0 default).eval 0
  | i + 1 => (prims.getD (i / n) default).eval (((i % n + 1 : ℕ) : ℝ) / (n : ℝ))

/-- Sum of full primitive lengths (`n` sample intervals each). -/
noncomputable def sumLens (n : ℕ) (l : List Primitive) : ℝ :=
  (l.map (fun p => partialLen p n n)).sum

/-- Concrete raw keyframe (level 0, centered) for witnesses. -/
noncomputable def rawKA : RawCam :=
  { globalLevel := some 0, x := some (1 / 2), y := some (1 / 2) }

/-- Concrete raw keyframe (level 1, centered) for witnesses. -/
noncomputable def rawKB : RawCam :=
  { globalLevel := some 1, x := some (1 / 2), y := some (1 / 2) }

/-- A deep dataset configuration: `max_level = 200`, no path. -/
def cfgDeep : DatasetCfg := ⟨some 200, []⟩

/-- A shallow dataset configuration: `max_level = 20`, no path. -/
def cfgShallow : DatasetCfg := ⟨some 20, []⟩

/-! ## Theorems -/

theorem Camera.ext_iff₄ (a b : Camera) :
    a = b ↔ a.globalLevel = b.globalLevel ∧ a.x = b.x ∧ a.y = b.y ∧
      a.rotation = b.rotation := by
  cases a; cases b; simp

theorem clamp01_of_mem (v : ℝ) (h0 : 0 ≤ v) (h1 : v ≤ 1) : clamp01 v = v := by
  unfold clamp01
  rw [if_neg (not_lt.mpr h0), if_neg (not_lt.mpr h1)]

theorem clamp01_mem (v : ℝ) : 0 ≤ clamp01 v ∧ clamp01 v ≤ 1 := by
  unfold clamp01
  split
  · exact ⟨le_refl 0, zero_le_one⟩
  · split
    · exact ⟨zero_le_one, le_refl 1⟩
    · exact ⟨le_of_not_lt (by assumption), le_of_not_lt (by assumption)⟩

/-- C5: for every camera and pixel delta, `pan(dx, dy)` sets
`x := clamp01(x - worldPerPixel * (dx cos r - dy sin r))` and
`y := clamp01(y - worldPerPixel * (dx sin r + dy cos r))` with
`worldPerPixel = 1 / (tileSize * 2^globalLevel)`, leaving `globalLevel` and
`rotation` unchanged.  (Stated for all cameras; the claim's restriction to
`x, y ∈ [0, 1]` is a special case.) -/
theorem pan_matches_spec (dx dy : ℝ) (cam : Camera) :
    pan dx dy cam =
      { globalLevel := cam.globalLevel
        x := clamp01 (cam.x -
          1 / (LOGICAL_TILE_SIZE * (2 : ℝ) ^ cam.globalLevel) *
            (dx * Real.cos cam.rotation - dy * Real.sin cam.rotation))
        y := clamp01 (cam.y -
          1 / (LOGICAL_TILE_SIZE * (2 : ℝ) ^ cam.globalLevel) *
            (dx * Real.sin cam.rotation + dy * Real.cos cam.rotation))
        rotation := cam.rotation } := by
  obtain ⟨gl, cx, cy, rot⟩ := cam
  unfold pan
  refine (Camera.ext_iff₄ _ _).mpr ⟨rfl, ?_, ?_, rfl⟩ <;>
    · show clamp01 _ = clamp01 _
      congr 1
      ring

/-! ### Selector sweep lemmas (C2, C9) -/

theorem dyStep_tiles_pos (ctx : SweepCtx) (dx : ℤ) (acc : SweepAcc) (dy : ℤ)
    (h1 : circlePass ctx dx dy) (h2 : inBounds ctx dx dy) :
    (dyStep ctx dx acc dy).tiles = acc.tiles ++ [mkTile ctx dx dy] := by
  unfold dyStep
  rw [if_pos h1, if_pos h2]

theorem dyStep_tiles_neg (ctx : SweepCtx) (dx : ℤ) (acc : SweepAcc) (dy : ℤ)
    (h : ¬(circlePass ctx dx dy ∧ inBounds ctx dx dy)) :
    (dyStep ctx dx acc dy).tiles = acc.tiles := by
  unfold dyStep
  by_cases h1 : circlePass ctx dx dy
  · have h2 : ¬inBounds ctx dx dy := fun h2 => h ⟨h1, h2⟩
    rw [if_pos h1, if_neg h2]
  · rw [if_neg h1]

theorem mem_dyFold (ctx : SweepCtx) (dx : ℤ) (l : List ℤ) (acc : SweepAcc)
    (t : Tile) :
    t ∈ (l.foldl (dyStep ctx dx) acc).tiles ↔
      t ∈ acc.tiles ∨ ∃ dy ∈ l, circlePass ctx dx dy ∧ inBounds ctx dx dy ∧
        t = mkTile ctx dx dy := by
  induction l generalizing acc with
  | nil => simp
  | cons dy tl ih =>
    rw [List.foldl_cons, ih]
    by_cases h : circlePass ctx dx dy ∧ inBounds ctx dx dy
    · rw [dyStep_tiles_pos ctx dx acc dy h.1 h.2]
      simp only [List.mem_append, List.mem_cons, List.not_mem_nil, or_false]
      constructor
      · rintro ((h' | rfl) | ⟨dy', hdy', h1, h2, rfl⟩)
        · exact Or.inl h'
        · exact Or.inr ⟨dy, Or.inl rfl, h.1, h.2, rfl⟩
        · exact Or.inr ⟨dy', Or.inr hdy', h1, h2, rfl⟩
      · rintro (h' | ⟨dy', (rfl | hdy'), h1, h2, rfl⟩)
        · exact Or.inl (Or.inl h')
        · exact Or.inl (Or.inr rfl)
        · exact Or.inr ⟨dy', hdy', h1, h2, rfl⟩
    · rw [dyStep_tiles_neg ctx dx acc dy h]
      simp only [List.mem_cons]
      constructor
      · rintro (h' | ⟨dy', hdy', hrest⟩)
        · exact Or.inl h'
        · exact Or.inr ⟨dy', Or.inr hdy', hrest⟩
      · rintro (h' | ⟨dy', (rfl | hdy'), h1, h2, rfl⟩)
        · exact Or.inl h'
        · exact absurd ⟨h1, h2⟩ h
        · exact Or.inr ⟨dy', hdy', h1, h2, rfl⟩

theorem skip_no_circlePass (ctx : SweepCtx) (dx : ℤ)
    (h : ((dx : ℝ) + 0.5 - ctx.offsetX) * ((dx : ℝ) + 0.5 - ctx.offsetX) >
        ctx.radiusSq) (dy : ℤ) : ¬circlePass ctx dx dy := by
  unfold circlePass
  intro hc
  have hy : (0 : ℝ) ≤ ((dy : ℝ) + 0.5 - ctx.offsetY) * ((dy : ℝ) + 0.5 - ctx.offsetY) :=
    mul_self_nonneg _
  linarith

theorem mem_dxStep (ctx : SweepCtx) (acc : SweepAcc) (dx : ℤ) (t : Tile) :
    t ∈ (dxStep ctx acc dx).tiles ↔
      t ∈ acc.tiles ∨ ∃ dy ∈ intRangeSym ctx.searchRadius,
        circlePass ctx dx dy ∧ inBounds ctx dx dy ∧ t = mkTile ctx dx dy := by
  unfold dxStep
  by_cases h : skipColumn ctx dx
  · rw [if_pos h]
    obtain ⟨hfar, _⟩ := h
    constructor
    · exact Or.inl
    · rintro (h' | ⟨dy, _, h1, _, _⟩)
      · exact h'
      · exact absurd h1 (skip_no_circlePass ctx dx hfar dy)
  · rw [if_neg h]
    exact mem_dyFold ctx dx _ acc t

theorem mem_dxFold (ctx : SweepCtx) (l : List ℤ) (acc : SweepAcc) (t : Tile) :
    t ∈ (l.foldl (dxStep ctx) acc).tiles ↔
      t ∈ acc.tiles ∨ ∃ dx ∈ l, ∃ dy ∈ intRangeSym ctx.searchRadius,
        circlePass ctx dx dy ∧ inBounds ctx dx dy ∧ t = mkTile ctx dx dy := by
  induction l generalizing acc with
  | nil => simp
  | cons dx tl ih =>
    rw [List.foldl_cons, ih]
    constructor
    · rintro (hmem | ⟨dx', hdx', rest⟩)
      · rcases (mem_dxStep ctx acc dx t).mp hmem with h' | ⟨dy, hdy, rest⟩
        · exact Or.inl h'
        · exact Or.inr ⟨dx, List.mem_cons_self _ _, dy, hdy, rest⟩
      · exact Or.inr ⟨dx', List.mem_cons_of_mem _ hdx', rest⟩
    · rintro (h' | ⟨dx', hdx', dy, hdy, rest⟩)
      · exact Or.inl ((mem_dxStep ctx acc dx t).mpr (Or.inl h'))
      · rcases List.mem_cons.mp hdx' with heq | hdx''
        · exact Or.inl ((mem_dxStep ctx acc dx t).mpr
            (Or.inr ⟨dy, hdy, heq ▸ rest⟩))
        · exact Or.inr ⟨dx', hdx'', dy, hdy, rest⟩

/-- Membership characterization of the selector result (shared helper). -/
theorem mem_visibleTiles_iff (camera : Camera) (targetLevel : ℤ)
    (viewWidth viewHeight tileSize : ℝ) (t : Tile) :
    t ∈ (getVisibleTilesForLevel camera targetLevel viewWidth viewHeight
        tileSize).tiles ↔
      ∃ dx ∈ intRangeSym (mkSweepCtx camera targetLevel viewWidth viewHeight
          tileSize).searchRadius,
        ∃ dy ∈ intRangeSym (mkSweepCtx camera targetLevel viewWidth viewHeight
            tileSize).searchRadius,
          circlePass (mkSweepCtx camera targetLevel viewWidth viewHeight
            tileSize) dx dy ∧
          inBounds (mkSweepCtx camera targetLevel viewWidth viewHeight
            tileSize) dx dy ∧
          t = mkTile (mkSweepCtx camera targetLevel viewWidth viewHeight
            tileSize) dx dy := by
  show t ∈ (sweep (mkSweepCtx camera targetLevel viewWidth viewHeight
      tileSize)).tiles ↔ _
  unfold sweep
  rw [mem_dxFold]
  simp

/-- C2 (amended): a candidate `(dx, dy)` of the sweep is recorded by
`getVisibleTilesForLevel` exactly when it passes the bounding-circle test AND
its reconstructed full index `centerT_int + d` lies inside
`[0, 2^targetLevel - 1]` on both axes; it is then recorded un-clamped with
`relX = dx - centerT_frac` and `relY = dy - centerT_frac_y`.  A passing
candidate whose index falls outside the range is skipped, not clamped. -/
theorem visibleTiles_records_only_in_range (camera : Camera) (targetLevel : ℤ)
    (viewWidth viewHeight tileSize : ℝ) (t : Tile) :
    t ∈ (getVisibleTilesForLevel camera targetLevel viewWidth viewHeight
        tileSize).tiles ↔
      ∃ dx ∈ intRangeSym (mkSweepCtx camera targetLevel viewWidth viewHeight
          tileSize).searchRadius,
        ∃ dy ∈ intRangeSym (mkSweepCtx camera targetLevel viewWidth viewHeight
            tileSize).searchRadius,
          circlePass (mkSweepCtx camera targetLevel viewWidth viewHeight
            tileSize) dx dy ∧
          inBounds (mkSweepCtx camera targetLevel viewWidth viewHeight
            tileSize) dx dy ∧
          t = mkTile (mkSweepCtx camera targetLevel viewWidth viewHeight
            tileSize) dx dy :=
  mem_visibleTiles_iff camera targetLevel viewWidth viewHeight tileSize t

theorem mkSweepCtx_limit (camera : Camera) (targetLevel : ℤ)
    (viewWidth viewHeight tileSize : ℝ) :
    (mkSweepCtx camera targetLevel viewWidth viewHeight tileSize).limit =
      jsShl1 targetLevel - 1 := by
  unfold mkSweepCtx
  rfl

/-- C9: for every camera and every negative integer target level,
`getVisibleTilesForLevel` returns an empty tiles list (the BigInt limit
degenerates to `-1`, so the range test rejects every candidate). -/
theorem visibleTiles_neg_level_empty (camera : Camera) (targetLevel : ℤ)
    (viewWidth viewHeight tileSize : ℝ) (h : targetLevel < 0) :
    (getVisibleTilesForLevel camera targetLevel viewWidth viewHeight
      tileSize).tiles = [] := by
  rw [List.eq_nil_iff_forall_not_mem]
  intro t ht
  rw [mem_visibleTiles_iff] at ht
  obtain ⟨dx, _, dy, _, _, hb, _⟩ := ht
  rw [inBounds, mkSweepCtx_limit] at hb
  push_neg at hb
  obtain ⟨h1, h2, -, -⟩ := hb
  rw [jsShl1, if_neg (not_le.mpr h)] at h2
  omega

/-- Witness for C9 at a concrete negative level. -/
theorem visibleTiles_neg_level_empty_witness :
    (-1 : ℤ) < 0 ∧
      (getVisibleTilesForLevel ⟨0, 1/2, 1/2, 0⟩ (-1) 100 100 256).tiles = [] :=
  ⟨by decide, visibleTiles_neg_level_empty ⟨0, 1/2, 1/2, 0⟩ (-1) 100 100 256
    (by decide)⟩

theorem mkSweepCtx_camHalf :
    mkSweepCtx camHalf 0 600 800 512 =
      ⟨500 / 512, 1, (500 / 512 + 0.75) ^ 2, 0, 0, 1 / 2, 1 / 2, 0, 0⟩ := by
  have hrad : Real.sqrt (((600 : ℝ) / 2) ^ 2 + ((800 : ℝ) / 2) ^ 2) = 500 := by
    rw [show ((600 : ℝ) / 2) ^ 2 + ((800 : ℝ) / 2) ^ 2 = 500 ^ 2 by norm_num]
    exact Real.sqrt_sq (by norm_num)
  have hrpow : (2 : ℝ) ^ (camHalf.globalLevel - ((0 : ℤ) : ℝ)) = 1 := by
    rw [show camHalf.globalLevel - ((0 : ℤ) : ℝ) = 0 by simp [camHalf]]
    exact Real.rpow_zero 2
  unfold mkSweepCtx
  simp only [hrad, hrpow]
  rw [show (512 : ℝ) * 1 = 512 by norm_num]
  have hx : camHalf.x * (2 : ℝ) ^ (0 : ℤ) = 1 / 2 := by simp [camHalf]
  have hy : camHalf.y * (2 : ℝ) ^ (0 : ℤ) = 1 / 2 := by simp [camHalf]
  rw [hx, hy]
  have hfl : ⌊(1 : ℝ) / 2⌋ = 0 := by norm_num
  rw [hfl]
  congr 1
  · rw [Int.ceil_eq_iff]
    constructor <;> norm_num
  · norm_num
  · norm_num

/-- C2 counterexample: at camera `(1/2, 1/2)`, `globalLevel = 0`, target
level 0, viewport 600×800, tile size 512, the sweep candidate
`(dx, dy) = (-1, 0)` passes the bounding-circle test and reconstructs the
out-of-range index `-1`; the claim would record it with the clamped index 0
and `relX = -1 - centerT_frac = -3/2`, but no such tile appears in the
result. -/
theorem visibleTiles_clamping_refuted :
    circlePass (mkSweepCtx camHalf 0 600 800 512) (-1) 0 ∧
      (mkSweepCtx camHalf 0 600 800 512).centerTx_bi + (-1) < 0 ∧
      (⟨0, 0, 0, -(3 : ℝ) / 2, -(1 : ℝ) / 2⟩ : Tile) ∉
        (getVisibleTilesForLevel camHalf 0 600 800 512).tiles := by
  refine ⟨?_, ?_, ?_⟩
  · rw [mkSweepCtx_camHalf]
    unfold circlePass
    push_cast
    norm_num
  · rw [mkSweepCtx_camHalf]
    norm_num
  · intro hmem
    rw [mem_visibleTiles_iff] at hmem
    obtain ⟨dx, _, dy, _, _, _, heq⟩ := hmem
    rw [mkSweepCtx_camHalf] at heq
    simp only [mkTile, Tile.mk.injEq] at heq
    obtain ⟨-, hxidx, -, hrelx, -⟩ := heq
    have hdx : dx = 0 := by omega
    rw [hdx] at hrelx
    norm_num at hrelx

/-! ### Sampler lemmas (C1, C8, C10) -/

/-- C8: `buildSampler` on an empty keyframe list yields a sampler whose
`cameraAtProgress` is null everywhere; on a single keyframe it yields the
constant sampler returning that macro-resolved keyframe at every
progress. -/
theorem buildSampler_degenerate (k : RawCam) (p q : ℝ) :
    (buildSampler []).cameraAtProgress p = none ∧
      (buildSampler [k]).cameraAtProgress q =
        some (resolveCameraMacros k) :=
  ⟨rfl, rfl⟩

theorem lineEval_zero (p1 p2 : Camera) : lineEval p1 p2 0 = p1 := by
  obtain ⟨gl1, x1, y1, r1⟩ := p1
  simp only [lineEval, mul_zero, add_zero, Camera.mk.injEq, true_and,
    and_true]
  refine ⟨?_, ?_⟩ <;>
  · split
    · ring
    · rw [sub_self, zero_div, mul_zero, add_zero]

theorem lineEval_one (p1 p2 : Camera) : lineEval p1 p2 1 = p2 := by
  obtain ⟨gl2, x2, y2, r2⟩ := p2
  have hL : p1.globalLevel + (gl2 - p1.globalLevel) * 1 = gl2 := by ring
  have hr : p1.rotation + (r2 - p1.rotation) * 1 = r2 := by ring
  simp only [lineEval, hL, hr, Camera.mk.injEq, true_and, and_true]
  refine ⟨?_, ?_⟩ <;>
  · split
    · ring
    · rename_i hw
      rw [div_self hw]
      ring

theorem cornerEval_zero (p0 p1 p2 : Camera) : cornerEval p0 p1 p2 0 = p0 := by
  obtain ⟨gl, x, y, r⟩ := p0
  simp only [cornerEval, Camera.mk.injEq]
  refine ⟨by ring, by ring, by ring, by ring⟩

theorem cornerEval_one (p0 p1 p2 : Camera) : cornerEval p0 p1 p2 1 = p2 := by
  obtain ⟨gl, x, y, r⟩ := p2
  simp only [cornerEval, Camera.mk.injEq]
  refine ⟨by ring, by ring, by ring, by ring⟩

theorem goPrims_ne_nil (cur a b : Camera) (tl : List Camera) :
    goPrims cur (a :: b :: tl) ≠ [] := by
  cases tl <;> simp [goPrims]

theorem goPrims_getD_zero (cur a b : Camera) (tl : List Camera) :
    ((goPrims cur (a :: b :: tl)).getD 0 default).eval 0 = cur := by
  cases tl <;> simp [goPrims, Primitive.eval, lineEval_zero]

theorem goPrims_head (cur a b : Camera) (tl : List Camera) :
    ∀ q ∈ (goPrims cur (a :: b :: tl)).head?, q.eval 0 = cur := by
  cases tl <;>
  · intro q hq
    simp [goPrims] at hq
    subst hq
    simp [Primitive.eval, lineEval_zero]

theorem goPrims_getLastD (cur a b : Camera) (tl : List Camera) :
    ∀ (d : Primitive) (dc : Camera),
      ((goPrims cur (a :: b :: tl)).getLastD d).eval 1 =
        (a :: b :: tl).getLastD dc := by
  induction tl generalizing cur a b with
  | nil =>
    intro d dc
    simp [goPrims, List.getLastD, Primitive.eval, lineEval_one]
  | cons c tl' ih =>
    intro d dc
    show ((Primitive.line cur _ :: Primitive.corner _ _ _ ::
        goPrims _ (b :: c :: tl')).getLastD d).eval 1 = _
    rw [List.getLastD_cons, List.getLastD_cons]
    rw [ih]
    rw [show (a :: b :: c :: tl').getLastD dc = (b :: c :: tl').getLastD a
      from List.getLastD_cons a dc (b :: c :: tl')]

/-- The chaining relation between consecutive primitives: each primitive
starts where the previous one ends. -/
def chainR (p q : Primitive) : Prop := p.eval 1 = q.eval 0

theorem goPrims_chain (cur a b : Camera) (tl : List Camera) :
    List.Chain' chainR (goPrims cur (a :: b :: tl)) := by
  induction tl generalizing cur a b with
  | nil => simp [goPrims]
  | cons c tl' ih =>
    show List.Chain' chainR (.line cur _ :: .corner _ _ _ ::
      goPrims _ (b :: c :: tl'))
    refine List.chain'_cons'.mpr ⟨?_, List.chain'_cons'.mpr ⟨?_, ih _ _ _⟩⟩
    · intro q hq
      simp at hq
      subst hq
      show Primitive.eval _ 1 = Primitive.eval _ 0
      simp [Primitive.eval, lineEval_one, cornerEval_zero]
    · intro q hq
      have hstart := goPrims_head _ b c tl' q hq
      show Primitive.eval (.corner _ _ _) 1 = q.eval 0
      rw [hstart]
      simp [Primitive.eval, cornerEval_one]

theorem visualDist_nonneg (a b : Camera) : 0 ≤ visualDist a b :=
  Real.sqrt_nonneg _

theorem partialLen_nonneg (p : Primitive) (n m : ℕ) :
    0 ≤ partialLen p n m := by
  induction m with
  | zero => exact le_refl 0
  | succ m ih => exact add_nonneg ih (visualDist_nonneg _ _)

theorem phase2_stops (n : ℕ) (l : List Primitive) (k : ℕ) (acc : ℝ) :
    (∀ z ∈ (phase2 n l k acc).2.2, acc ≤ z) ∧
      List.Chain' (· ≤ ·) (phase2 n l k acc).2.2 ∧
      acc ≤ (phase2 n l k acc).2.1 ∧
      (l = [] ∨
        (phase2 n l k acc).2.2.getLast? = some (phase2 n l k acc).2.1) := by
  induction l generalizing k acc with
  | nil => simp [phase2]
  | cons p tl ih =>
    obtain ⟨ih1, ih2, ih3, ih4⟩ := ih (k + 1) (acc + partialLen p n n)
    have hstep : acc ≤ acc + partialLen p n n :=
      le_add_of_nonneg_right (partialLen_nonneg p n n)
    have hcons : phase2 n (p :: tl) k acc =
        (primLut p n k acc ++ (phase2 n tl (k + 1) (acc + partialLen p n n)).1,
          (phase2 n tl (k + 1) (acc + partialLen p n n)).2.1,
          (if p.isCorner ∨ tl.isEmpty then [acc + partialLen p n n] else []) ++
            (phase2 n tl (k + 1) (acc + partialLen p n n)).2.2) := rfl
    rw [hcons]
    refine ⟨?_, ?_, le_trans hstep ih3, ?_⟩
    · intro z hz
      rcases List.mem_append.mp hz with hz' | hz'
      · split at hz'
        · rcases List.mem_singleton.mp hz' with rfl
          exact hstep
        · cases hz'
      · exact le_trans hstep (ih1 z hz')
    · split
      · refine List.chain'_cons'.mpr ⟨?_, ih2⟩
        intro y hy
        have hmem : y ∈ (phase2 n tl (k + 1) (acc + partialLen p n n)).2.2 :=
          List.mem_of_mem_head? hy
        exact ih1 y hmem
      · exact ih2
    · right
      rcases ih4 with htl | hlast
      · subst htl
        simp [phase2]
      · have hne : (phase2 n tl (k + 1) (acc + partialLen p n n)).2.2 ≠ [] := by
          intro hnil
          rw [hnil] at hlast
          cases hlast
        rw [List.getLast?_append_of_ne_nil _ hne]
        exact hlast

theorem phase2_stops_len_goPrims (n : ℕ) (cur a b : Camera)
    (tl : List Camera) :
    ∀ (k : ℕ) (acc : ℝ),
      (phase2 n (goPrims cur (a :: b :: tl)) k acc).2.2.length =
        tl.length + 1 := by
  induction tl generalizing cur a b with
  | nil =>
    intro k acc
    simp [goPrims, phase2, Primitive.isCorner]
  | cons c tl' ih =>
    intro k acc
    show (phase2 n (.line cur _ :: .corner _ _ _ ::
        goPrims _ (b :: c :: tl')) k acc).2.2.length = tl'.length + 2
    have h1 : ∀ (k' : ℕ) (acc' : ℝ) (q0 q1 q2 : Camera)
        (rest : List Primitive),
        (phase2 n (Primitive.corner q0 q1 q2 :: rest) k' acc').2.2.length =
          1 + (phase2 n rest (k' + 1)
            (acc' + partialLen (.corner q0 q1 q2) n n)).2.2.length := by
      intro k' acc' q0 q1 q2 rest
      show ((if (Primitive.corner q0 q1 q2).isCorner ∨ rest.isEmpty
          then [acc' + partialLen (.corner q0 q1 q2) n n] else []) ++
          (phase2 n rest (k' + 1)
            (acc' + partialLen (.corner q0 q1 q2) n n)).2.2).length = _
      simp [Primitive.isCorner]
      omega
    have h0 : ∀ (k' : ℕ) (acc' : ℝ) (q1 q2 : Camera) (r0 : Primitive)
        (rest : List Primitive),
        (phase2 n (Primitive.line q1 q2 :: r0 :: rest) k' acc').2.2.length =
          (phase2 n (r0 :: rest) (k' + 1)
            (acc' + partialLen (.line q1 q2) n n)).2.2.length := by
      intro k' acc' q1 q2 r0 rest
      show ((if (Primitive.line q1 q2).isCorner ∨ (r0 :: rest).isEmpty
          then [acc' + partialLen (.line q1 q2) n n] else []) ++
          (phase2 n (r0 :: rest) (k' + 1)
            (acc' + partialLen (.line q1 q2) n n)).2.2).length = _
      simp [Primitive.isCorner]
    cases hgp : goPrims (lineEval b c
        (cornerRadius (segLen a b) (segLen b c) / segLen b c)) (b :: c :: tl')
      with
    | nil => exact absurd hgp (goPrims_ne_nil _ _ _ _)
    | cons r0 rest =>
      rw [h0, h1]
      rw [← hgp, ih]
      omega

/-- `buildSampler` on a two-or-more-keyframe path, unfolded. -/
theorem buildSampler_cons₂ (k1 k2 : RawCam) (rest : List RawCam) :
    buildSampler (k1 :: k2 :: rest) =
      { cameraAtProgress := fun p =>
          some (evalAtProgress
            (goPrims (resolveCameraMacros k1)
              (resolveCameraMacros k1 :: resolveCameraMacros k2 ::
                rest.map resolveCameraMacros))
            ((0, 0) :: (phase2 SAMPLES_PER_PRIM
              (goPrims (resolveCameraMacros k1)
                (resolveCameraMacros k1 :: resolveCameraMacros k2 ::
                  rest.map resolveCameraMacros)) 0 0).1)
            (phase2 SAMPLES_PER_PRIM
              (goPrims (resolveCameraMacros k1)
                (resolveCameraMacros k1 :: resolveCameraMacros k2 ::
                  rest.map resolveCameraMacros)) 0 0).2.1 p)
        totalLength := (phase2 SAMPLES_PER_PRIM
          (goPrims (resolveCameraMacros k1)
            (resolveCameraMacros k1 :: resolveCameraMacros k2 ::
              rest.map resolveCameraMacros)) 0 0).2.1
        stops := 0 :: (phase2 SAMPLES_PER_PRIM
          (goPrims (resolveCameraMacros k1)
            (resolveCameraMacros k1 :: resolveCameraMacros k2 ::
              rest.map resolveCameraMacros)) 0 0).2.2 } := rfl

/-- C10: for a path of `n ≥ 2` keyframes the sampler's `stops` has exactly
`n` entries, starts at `0`, is non-decreasing, and ends at `totalLength`. -/
theorem sampler_stops (kfs : List RawCam) (h : 2 ≤ kfs.length) :
    (buildSampler kfs).stops.length = kfs.length ∧
      (buildSampler kfs).stops.head? = some 0 ∧
      List.Chain' (· ≤ ·) (buildSampler kfs).stops ∧
      (buildSampler kfs).stops.getLast? =
        some (buildSampler kfs).totalLength := by
  match kfs, h with
  | k1 :: k2 :: rest, _ =>
    rw [buildSampler_cons₂]
    obtain ⟨hall, hchain, -, hlast⟩ :=
      phase2_stops SAMPLES_PER_PRIM
        (goPrims (resolveCameraMacros k1)
          (resolveCameraMacros k1 :: resolveCameraMacros k2 ::
            rest.map resolveCameraMacros)) 0 0
    rcases hlast with hnil | hlast
    · exact absurd hnil (goPrims_ne_nil _ _ _ _)
    refine ⟨?_, rfl, ?_, ?_⟩
    · show (0 :: _).length = _
      rw [List.length_cons, phase2_stops_len_goPrims]
      simp
    · refine List.chain'_cons'.mpr ⟨?_, hchain⟩
      intro y hy
      exact hall y (List.mem_of_mem_head? hy)
    · have hne : (phase2 SAMPLES_PER_PRIM
          (goPrims (resolveCameraMacros k1)
            (resolveCameraMacros k1 :: resolveCameraMacros k2 ::
              rest.map resolveCameraMacros)) 0 0).2.2 ≠ [] := by
        intro hnil
        rw [hnil] at hlast
        cases hlast
      show ([0] ++ _).getLast? = _
      rw [List.getLast?_append_of_ne_nil _ hne]
      exact hlast

theorem visualDist_eq_zero {a b : Camera} (h : visualDist a b = 0) :
    a = b := by
  simp only [visualDist] at h
  set sc := (2 : ℝ) ^ min a.globalLevel b.globalLevel with hsc
  have hscpos : 0 < sc := Real.rpow_pos_of_pos (by norm_num) _
  have hx2 := mul_self_nonneg ((a.x - b.x) * sc)
  have hy2 := mul_self_nonneg ((a.y - b.y) * sc)
  have hl2 := mul_self_nonneg (a.globalLevel - b.globalLevel)
  have hr2 := mul_self_nonneg (a.rotation - b.rotation)
  have hsum : ((a.x - b.x) * sc) * ((a.x - b.x) * sc) +
      ((a.y - b.y) * sc) * ((a.y - b.y) * sc) +
      (a.globalLevel - b.globalLevel) * (a.globalLevel - b.globalLevel) +
      (a.rotation - b.rotation) * (a.rotation - b.rotation) ≤ 0 :=
    Real.sqrt_eq_zero'.mp h
  have hxz : (a.x - b.x) * sc = 0 := by nlinarith
  have hyz : (a.y - b.y) * sc = 0 := by nlinarith
  have hlz : a.globalLevel - b.globalLevel = 0 := by nlinarith
  have hrz : a.rotation - b.rotation = 0 := by nlinarith
  have hx : a.x = b.x := by
    rcases mul_eq_zero.mp hxz with h' | h'
    · linarith
    · exact absurd h' (ne_of_gt hscpos)
  have hy : a.y = b.y := by
    rcases mul_eq_zero.mp hyz with h' | h'
    · linarith
    · exact absurd h' (ne_of_gt hscpos)
  exact (Camera.ext_iff₄ a b).mpr ⟨by linarith, hx, hy, by linarith⟩

theorem primLut_getD (p : Primitive) (n k : ℕ) (d0 : ℝ) (i : ℕ) (hi : i < n) :
    (primLut p n k d0).getD i (0, 0) =
      ((k : ℝ) + ((i + 1 : ℕ) : ℝ) / (n : ℝ), d0 + partialLen p n (i + 1)) := by
  unfold primLut
  rw [List.getD_eq_getElem?_getD, List.getElem?_map, List.getElem?_range hi]
  rfl

theorem primLut_length (p : Primitive) (n k : ℕ) (d0 : ℝ) :
    (primLut p n k d0).length = n := by
  simp [primLut]

theorem sumLens_nil (n : ℕ) : sumLens n [] = 0 := rfl

theorem sumLens_cons (n : ℕ) (p : Primitive) (l : List Primitive) :
    sumLens n (p :: l) = partialLen p n n + sumLens n l := by
  simp [sumLens]

theorem sumLens_nonneg (n : ℕ) (l : List Primitive) : 0 ≤ sumLens n l := by
  induction l with
  | nil => exact le_refl 0
  | cons p tl ih =>
    rw [sumLens_cons]
    exact add_nonneg (partialLen_nonneg _ _ _) ih

theorem phase2_lut_length (n : ℕ) (l : List Primitive) :
    ∀ (k : ℕ) (acc : ℝ), (phase2 n l k acc).1.length = n * l.length := by
  induction l with
  | nil => intro k acc; simp [phase2]
  | cons p tl ih =>
    intro k acc
    show (primLut p n k acc ++ _).length = _
    rw [List.length_append, primLut_length, ih]
    rw [List.length_cons]
    ring

theorem phase2_total (n : ℕ) (l : List Primitive) :
    ∀ (k : ℕ) (acc : ℝ), (phase2 n l k acc).2.1 = acc + sumLens n l := by
  induction l with
  | nil => intro k acc; simp [phase2, sumLens_nil]
  | cons p tl ih =>
    intro k acc
    show (phase2 n tl (k + 1) (acc + partialLen p n n)).2.1 = _
    rw [ih, sumLens_cons]
    ring

theorem phase2_lut_getD (n : ℕ) (hn : n ≠ 0) (l : List Primitive) :
    ∀ (k : ℕ) (acc : ℝ) (i : ℕ), i < n * l.length →
      (phase2 n l k acc).1.getD i (0, 0) =
        (((k + i / n : ℕ) : ℝ) + ((i % n + 1 : ℕ) : ℝ) / (n : ℝ),
          acc + sumLens n (l.take (i / n)) +
            partialLen (l.getD (i / n) default) n (i % n + 1)) := by
  induction l with
  | nil =>
    intro k acc i hi
    simp at hi
  | cons p tl ih =>
    intro k acc i hi
    show (primLut p n k acc ++
      (phase2 n tl (k + 1) (acc + partialLen p n n)).1).getD i (0, 0) = _
    by_cases hlt : i < n
    · have hdiv : i / n = 0 := Nat.div_eq_of_lt hlt
      have hmod : i % n = i := Nat.mod_eq_of_lt hlt
      rw [List.getD_append _ _ _ _ (by rw [primLut_length]; exact hlt)]
      rw [primLut_getD p n k acc i hlt, hdiv, hmod]
      simp [sumLens_nil]
    · push_neg at hlt
      have hnpos : 0 < n := Nat.pos_of_ne_zero hn
      have hrec : i - n < n * tl.length := by
        rw [List.length_cons] at hi
        have : n * (tl.length + 1) = n * tl.length + n := by ring
        omega
      rw [List.getD_append_right _ _ _ _ (by rw [primLut_length]; exact hlt),
        primLut_length]
      rw [ih (k + 1) (acc + partialLen p n n) (i - n) hrec]
      have hdiv : i / n = (i - n) / n + 1 := Nat.div_eq_sub_div hnpos hlt
      have hmod : i % n = (i - n) % n := Nat.mod_eq_sub_mod hlt
      rw [Prod.mk.injEq]
      constructor
      · rw [hdiv, hmod]
        congr 2
        omega
      · rw [hdiv, hmod]
        rw [List.take_succ_cons, sumLens_cons, List.getD_cons_succ]
        ring

theorem sumLens_take_succ (n : ℕ) (l : List Primitive) (m : ℕ)
    (hm : m < l.length) :
    sumLens n (l.take (m + 1)) =
      sumLens n (l.take m) + partialLen (l.getD m default) n n := by
  rw [List.take_succ]
  have hget : l[m]? = some (l.getD m default) := by
    rw [List.getD_eq_getElem _ _ hm, List.getElem?_eq_getElem hm]
  rw [hget]
  show sumLens n (l.take m ++ [l.getD m default]) = _
  unfold sumLens
  rw [List.map_append, List.sum_append]
  simp

theorem getD_length_sub_one {α : Type} (l : List α) (hne : l ≠ []) (d : α) :
    l.getD (l.length - 1) d = l.getLastD d := by
  induction l with
  | nil => exact absurd rfl hne
  | cons a t ih =>
    cases t with
    | nil => rfl
    | cons b t' =>
      have hlen : (a :: b :: t').length - 1 = ((b :: t').length - 1) + 1 := by
        simp
      rw [hlen, List.getD_cons_succ, ih (List.cons_ne_nil b t'),
        List.getLastD_cons, List.getLastD_cons, List.getLastD_cons]

theorem lut_dist_zero (n : ℕ) (prims : List Primitive) :
    lutDist ((0, 0) :: (phase2 n prims 0 0).1) 0 = 0 := rfl

theorem lut_dist_succ (n : ℕ) (hn : n ≠ 0) (prims : List Primitive) (i : ℕ)
    (hi : i < n * prims.length) :
    lutDist ((0, 0) :: (phase2 n prims 0 0).1) (i + 1) =
      sumLens n (prims.take (i / n)) +
        partialLen (prims.getD (i / n) default) n (i % n + 1) := by
  unfold lutDist
  rw [List.getD_cons_succ, phase2_lut_getD n hn prims 0 0 i hi]
  show (0 : ℝ) + _ + _ = _
  rw [zero_add]

theorem lut_t_succ (n : ℕ) (hn : n ≠ 0) (prims : List Primitive) (i : ℕ)
    (hi : i < n * prims.length) :
    lutT ((0, 0) :: (phase2 n prims 0 0).1) (i + 1) =
      ((i / n : ℕ) : ℝ) + ((i % n + 1 : ℕ) : ℝ) / (n : ℝ) := by
  unfold lutT
  rw [List.getD_cons_succ, phase2_lut_getD n hn prims 0 0 i hi]
  show ((0 + i / n : ℕ) : ℝ) + _ = _
  rw [Nat.zero_add]

theorem sampleAt_zero (prims : List Primitive) (n : ℕ) :
    sampleAt prims n 0 = (prims.getD 0 default).eval 0 := rfl

theorem sampleAt_succ (prims : List Primitive) (n i : ℕ) :
    sampleAt prims n (i + 1) =
      (prims.getD (i / n) default).eval (((i % n + 1 : ℕ) : ℝ) / (n : ℝ)) :=
  rfl

theorem chainR_getD (prims : List Primitive) (hch : List.Chain' chainR prims)
    (m : ℕ) (hm : m + 1 < prims.length) :
    (prims.getD m default).eval 1 = (prims.getD (m + 1) default).eval 0 := by
  have h := List.chain'_iff_get.mp hch m (by omega)
  rw [List.getD_eq_getElem _ _ (by omega), List.getD_eq_getElem _ _ hm]
  simpa [chainR, List.get_eq_getElem] using h

theorem lut_dist_step (n : ℕ) (hn : n ≠ 0) (prims : List Primitive)
    (hch : List.Chain' chainR prims) (i : ℕ)
    (hi : i + 1 ≤ n * prims.length) :
    lutDist ((0, 0) :: (phase2 n prims 0 0).1) (i + 1) =
      lutDist ((0, 0) :: (phase2 n prims 0 0).1) i +
        visualDist (sampleAt prims n i) (sampleAt prims n (i + 1)) := by
  have hnpos : 0 < n := Nat.pos_of_ne_zero hn
  rcases Nat.eq_zero_or_pos i with rfl | hipos
  · rw [lut_dist_succ n hn prims 0 (by omega), lut_dist_zero]
    rw [sampleAt_zero, sampleAt_succ, Nat.zero_div, Nat.zero_mod,
      List.take_zero, sumLens_nil]
    simp only [partialLen, Nat.cast_zero, zero_div, zero_add, Nat.cast_one]
  · obtain ⟨i', rfl⟩ : ∃ i', i = i' + 1 := ⟨i - 1, by omega⟩
    have hi1 : i' + 1 < n * prims.length := by omega
    have hi0 : i' < n * prims.length := by omega
    rw [lut_dist_succ n hn prims (i' + 1) hi1, lut_dist_succ n hn prims i' hi0]
    rw [sampleAt_succ prims n i', sampleAt_succ prims n (i' + 1)]
    have hdm : n * ((i' + 1) / n) + (i' + 1) % n = i' + 1 :=
      Nat.div_add_mod (i' + 1) n
    have hmodlt : (i' + 1) % n < n := Nat.mod_lt _ hnpos
    by_cases hq : (i' + 1) % n = 0
    · -- primitive boundary: row i'+2 is the first sample of the next
      -- primitive; the chain relation glues it to the previous row
      have hm : i' + 1 = n * ((i' + 1) / n) := by omega
      set m := (i' + 1) / n with hmdef
      have hmpos : 1 ≤ m := by
        rcases Nat.eq_zero_or_pos m with h0 | h1
        · rw [h0, Nat.mul_zero] at hm
          omega
        · exact h1
      have hsub : n * (m - 1) + n = n * m := by
        conv_rhs => rw [show m = m - 1 + 1 by omega]
        rw [Nat.mul_succ]
      have hi'eq : i' = n * (m - 1) + (n - 1) := by omega
      have hn1lt : n - 1 < n := by omega
      have hdiv' : i' / n = m - 1 := by
        rw [hi'eq, Nat.mul_add_div hnpos, Nat.div_eq_of_lt hn1lt, Nat.add_zero]
      have hmod' : i' % n = n - 1 := by
        rw [hi'eq, Nat.mul_add_mod, Nat.mod_eq_of_lt hn1lt]
      have hmlt : m < prims.length := by
        by_contra hge
        push_neg at hge
        have hmul : n * prims.length ≤ n * m := Nat.mul_le_mul_left n hge
        omega
      rw [hdiv', hmod', hq]
      rw [show n - 1 + 1 = n by omega]
      have htake : sumLens n (prims.take m) =
          sumLens n (prims.take (m - 1)) +
            partialLen (prims.getD (m - 1) default) n n := by
        rw [show m = (m - 1) + 1 by omega]
        exact sumLens_take_succ n prims (m - 1) (by omega)
      rw [htake]
      have hcast : ((n : ℕ) : ℝ) / (n : ℝ) = 1 := by
        rw [div_self]
        exact_mod_cast hn
      rw [hcast]
      have hchm := chainR_getD prims hch (m - 1)
        (by omega : (m - 1) + 1 < prims.length)
      rw [show m - 1 + 1 = m from by omega] at hchm
      rw [hchm]
      simp only [partialLen, Nat.cast_zero, zero_div, zero_add, Nat.cast_one]
    · -- interior sample: both rows sample the same primitive
      have hq1 : 1 ≤ (i' + 1) % n := Nat.pos_of_ne_zero hq
      set q1 := (i' + 1) % n with hq1def
      set m := (i' + 1) / n with hmdef
      have hi'eq : i' = n * m + (q1 - 1) := by omega
      have hqlt : q1 - 1 < n := by omega
      have hdiv' : i' / n = m := by
        rw [hi'eq, Nat.mul_add_div hnpos, Nat.div_eq_of_lt hqlt, Nat.add_zero]
      have hmod' : i' % n = q1 - 1 := by
        rw [hi'eq, Nat.mul_add_mod, Nat.mod_eq_of_lt hqlt]
      rw [hdiv', hmod']
      rw [show q1 - 1 + 1 = q1 by omega]
      simp only [partialLen]
      ring

theorem lut_dist_mono (n : ℕ) (hn : n ≠ 0) (prims : List Primitive)
    (hch : List.Chain' chainR prims) (i j : ℕ) (hij : i ≤ j)
    (hj : j ≤ n * prims.length) :
    lutDist ((0, 0) :: (phase2 n prims 0 0).1) i ≤
      lutDist ((0, 0) :: (phase2 n prims 0 0).1) j := by
  induction j, hij using Nat.le_induction with
  | base => exact le_refl _
  | succ j hij ih =>
    have hstep := lut_dist_step n hn prims hch j hj
    have hle := ih (by omega)
    have hv := visualDist_nonneg (sampleAt prims n j) (sampleAt prims n (j + 1))
    linarith

theorem lut_flat (n : ℕ) (hn : n ≠ 0) (prims : List Primitive)
    (hch : List.Chain' chainR prims) (i j : ℕ) (hij : i ≤ j)
    (hj : j ≤ n * prims.length)
    (heq : lutDist ((0, 0) :: (phase2 n prims 0 0).1) i =
      lutDist ((0, 0) :: (phase2 n prims 0 0).1) j) :
    sampleAt prims n i = sampleAt prims n j := by
  induction j, hij using Nat.le_induction with
  | base => rfl
  | succ j hij ih =>
    have hstep := lut_dist_step n hn prims hch j hj
    have h1 : lutDist ((0, 0) :: (phase2 n prims 0 0).1) i ≤
        lutDist ((0, 0) :: (phase2 n prims 0 0).1) j :=
      lut_dist_mono n hn prims hch i j hij (by omega)
    have hv := visualDist_nonneg (sampleAt prims n j) (sampleAt prims n (j + 1))
    have heqj : lutDist ((0, 0) :: (phase2 n prims 0 0).1) i =
        lutDist ((0, 0) :: (phase2 n prims 0 0).1) j := by linarith
    have hvz : visualDist (sampleAt prims n j) (sampleAt prims n (j + 1)) = 0 := by
      linarith
    rw [ih (by omega) heqj]
    exact visualDist_eq_zero hvz

theorem lut_dist_last (n : ℕ) (hn : n ≠ 0) (prims : List Primitive)
    (hne : prims ≠ []) :
    lutDist ((0, 0) :: (phase2 n prims 0 0).1) (n * prims.length) =
      (phase2 n prims 0 0).2.1 := by
  have hnpos : 0 < n := Nat.pos_of_ne_zero hn
  have hlen : 1 ≤ prims.length := List.length_pos.mpr hne
  have hM : 1 ≤ n * prims.length := Nat.one_le_iff_ne_zero.mpr (by positivity)
  obtain ⟨M', hM'⟩ : ∃ M', n * prims.length = M' + 1 :=
    ⟨n * prims.length - 1, by omega⟩
  rw [hM']
  rw [lut_dist_succ n hn prims M' (by omega)]
  have hM'eq : M' = n * (prims.length - 1) + (n - 1) := by
    have hsub : n * (prims.length - 1) + n = n * prims.length := by
      conv_rhs => rw [show prims.length = prims.length - 1 + 1 by omega]
      rw [Nat.mul_succ]
    omega
  have hdiv : M' / n = prims.length - 1 := by
    rw [hM'eq, Nat.mul_add_div hnpos, Nat.div_eq_of_lt (by omega), Nat.add_zero]
  have hmod : M' % n = n - 1 := by
    rw [hM'eq, Nat.mul_add_mod, Nat.mod_eq_of_lt (by omega)]
  rw [hdiv, hmod, show n - 1 + 1 = n by omega]
  rw [phase2_total n prims 0 0, zero_add]
  have htake : sumLens n (prims.take (prims.length - 1)) +
      partialLen (prims.getD (prims.length - 1) default) n n =
        sumLens n (prims.take prims.length) := by
    rw [show prims.length = (prims.length - 1) + 1 by omega,
      sumLens_take_succ n prims (prims.length - 1) (by omega)]
    rw [show prims.length - 1 + 1 - 1 = prims.length - 1 by omega]
  rw [htake, List.take_length]

theorem sampleAt_last (n : ℕ) (hn : n ≠ 0) (prims : List Primitive)
    (hne : prims ≠ []) :
    sampleAt prims n (n * prims.length) =
      (prims.getLastD default).eval 1 := by
  have hnpos : 0 < n := Nat.pos_of_ne_zero hn
  have hlen : 1 ≤ prims.length := List.length_pos.mpr hne
  have hMpos : 1 ≤ n * prims.length := Nat.mul_pos hnpos hlen
  obtain ⟨M', hM'⟩ : ∃ M', n * prims.length = M' + 1 :=
    ⟨n * prims.length - 1, by omega⟩
  rw [hM', sampleAt_succ]
  have hM'eq : M' = n * (prims.length - 1) + (n - 1) := by
    have hsub : n * (prims.length - 1) + n = n * prims.length := by
      conv_rhs => rw [show prims.length = prims.length - 1 + 1 by omega]
      rw [Nat.mul_succ]
    omega
  have hdiv : M' / n = prims.length - 1 := by
    rw [hM'eq, Nat.mul_add_div hnpos, Nat.div_eq_of_lt (by omega), Nat.add_zero]
  have hmod : M' % n = n - 1 := by
    rw [hM'eq, Nat.mul_add_mod, Nat.mod_eq_of_lt (by omega)]
  rw [hdiv, hmod, show n - 1 + 1 = n by omega]
  have hcast : ((n : ℕ) : ℝ) / (n : ℝ) = 1 := by
    rw [div_self]
    exact_mod_cast hn
  rw [hcast, getD_length_sub_one prims hne default]

theorem bsearch_spec (lut : List (ℝ × ℝ)) (target : ℝ) :
    ∀ (fuel low high : ℕ), high - low ≤ fuel → low ≤ high →
      (∀ i j, low ≤ i → i ≤ j → j ≤ high → lutDist lut i ≤ lutDist lut j) →
      low ≤ bsearch lut target low high ∧
        bsearch lut target low high ≤ high ∧
        (∀ i, low ≤ i → i < bsearch lut target low high →
          lutDist lut i < target) ∧
        (target ≤ lutDist lut (bsearch lut target low high) ∨
          bsearch lut target low high = high) := by
  intro fuel
  induction fuel with
  | zero =>
    intro low high hf hlh hmono
    have heq : low = high := by omega
    subst heq
    rw [bsearch, dif_neg (lt_irrefl low)]
    exact ⟨le_refl _, le_refl _, fun i h1 h2 => absurd h2 (by omega),
      Or.inr rfl⟩
  | succ fuel ih =>
    intro low high hf hlh hmono
    rw [bsearch]
    by_cases hlt : low < high
    · rw [dif_pos hlt]
      have hmidlo : low ≤ (low + high) / 2 := by omega
      have hmidhi : (low + high) / 2 < high := by omega
      by_cases hc : lutDist lut ((low + high) / 2) < target
      · rw [if_pos hc]
        obtain ⟨h1, h2, h3, h4⟩ := ih ((low + high) / 2 + 1) high (by omega)
          (by omega) (fun i j hi hij hj => hmono i j (by omega) hij hj)
        refine ⟨by omega, h2, ?_, h4⟩
        intro i hi hlt2
        by_cases hile : i ≤ (low + high) / 2
        · exact lt_of_le_of_lt (hmono i ((low + high) / 2) hi hile (by omega))
            hc
        · exact h3 i (by omega) hlt2
      · rw [if_neg hc]
        obtain ⟨h1, h2, h3, h4⟩ := ih low ((low + high) / 2) (by omega)
          (by omega) (fun i j hi hij hj => hmono i j hi hij (by omega))
        refine ⟨h1, by omega, h3, ?_⟩
        rcases h4 with h | h
        · exact Or.inl h
        · rw [h]
          exact Or.inl (not_lt.mp hc)
    · rw [dif_neg hlt]
      have heq : low = high := by omega
      exact ⟨le_refl _, by omega, fun i h1 h2 => absurd h2 (by omega),
        Or.inr heq⟩

theorem normalizeCamera_mem (cam : RawCam) :
    0 ≤ (normalizeCamera cam).x ∧ (normalizeCamera cam).x ≤ 1 ∧
      0 ≤ (normalizeCamera cam).y ∧ (normalizeCamera cam).y ≤ 1 :=
  ⟨(clamp01_mem _).1, (clamp01_mem _).2, (clamp01_mem _).1,
    (clamp01_mem _).2⟩

theorem resolveMandelbrotMacro_mem (cam : RawCam) (r : Camera)
    (h : resolveMandelbrotMacro cam = some r) :
    0 ≤ r.x ∧ r.x ≤ 1 ∧ 0 ≤ r.y ∧ r.y ≤ 1 := by
  unfold resolveMandelbrotMacro at h
  cases hre : cam.re with
  | none => rw [hre] at h; simp at h
  | some re =>
    cases him : cam.im with
    | none => rw [hre, him] at h; simp at h
    | some im =>
      rw [hre, him] at h
      simp only [Option.some.injEq] at h
      rw [← h]
      exact normalizeCamera_mem _

theorem resolveGlobalMacro_mem (cam : RawCam) (r : Camera)
    (h : resolveGlobalMacro cam = some r) :
    0 ≤ r.x ∧ r.x ≤ 1 ∧ 0 ≤ r.y ∧ r.y ≤ 1 := by
  unfold resolveGlobalMacro at h
  cases hgx : cam.globalX with
  | none => rw [hgx] at h; simp at h
  | some gx =>
    cases hgy : cam.globalY with
    | none => rw [hgx, hgy] at h; simp at h
    | some gy =>
      rw [hgx, hgy] at h
      simp only [Option.some.injEq] at h
      rw [← h]
      exact normalizeCamera_mem _

theorem resolveCameraMacros_mem (cam : RawCam) :
    0 ≤ (resolveCameraMacros cam).x ∧ (resolveCameraMacros cam).x ≤ 1 ∧
      0 ≤ (resolveCameraMacros cam).y ∧ (resolveCameraMacros cam).y ≤ 1 := by
  unfold resolveCameraMacros
  by_cases hc1 : cam.tag = some MacroTag.mandelbrot ∨
      cam.tag = some MacroTag.mandelbrotPoint ∨ cam.tag = some MacroTag.mb
  · rw [if_pos hc1]
    cases hm : resolveMandelbrotMacro cam with
    | some r => exact resolveMandelbrotMacro_mem cam r hm
    | none =>
      by_cases hc2 : cam.tag = some MacroTag.global ∨
          (cam.globalX.isSome ∧ cam.globalY.isSome)
      · rw [if_pos hc2]
        cases hg : resolveGlobalMacro cam with
        | some r => exact resolveGlobalMacro_mem cam r hg
        | none => exact normalizeCamera_mem cam
      · rw [if_neg hc2]
        exact normalizeCamera_mem cam
  · rw [if_neg hc1]
    by_cases hc2 : cam.tag = some MacroTag.global ∨
        (cam.globalX.isSome ∧ cam.globalY.isSome)
    · rw [if_pos hc2]
      cases hg : resolveGlobalMacro cam with
      | some r => exact resolveGlobalMacro_mem cam r hg
      | none => exact normalizeCamera_mem cam
    · rw [if_neg hc2]
      exact normalizeCamera_mem cam

theorem sampler_at_zero (c1 c2 : Camera) (cr : List Camera) :
    evalAtProgress (goPrims c1 (c1 :: c2 :: cr))
      ((0, 0) :: (phase2 SAMPLES_PER_PRIM (goPrims c1 (c1 :: c2 :: cr)) 0 0).1)
      (phase2 SAMPLES_PER_PRIM (goPrims c1 (c1 :: c2 :: cr)) 0 0).2.1 0 =
      c1 := by
  have hn : SAMPLES_PER_PRIM ≠ 0 := by decide
  set prims := goPrims c1 (c1 :: c2 :: cr) with hprims
  have hch : List.Chain' chainR prims := goPrims_chain c1 c1 c2 cr
  set lut := ((0, 0) :: (phase2 SAMPLES_PER_PRIM prims 0 0).1 :
    List (ℝ × ℝ)) with hlut
  have hlen : lut.length - 1 = SAMPLES_PER_PRIM * prims.length := by
    rw [hlut, List.length_cons, phase2_lut_length]
    omega
  have hmono : ∀ i j, 0 ≤ i → i ≤ j → j ≤ lut.length - 1 →
      lutDist lut i ≤ lutDist lut j := by
    intro i j _ hij hj
    rw [hlen] at hj
    exact lut_dist_mono _ hn prims hch i j hij hj
  simp only [evalAtProgress]
  rw [show min (1 : ℝ) (max 0 0) = 0 by norm_num, zero_mul]
  obtain ⟨hb1, hb2, hb3, hb4⟩ := bsearch_spec lut 0 (lut.length - 1) 0
    (lut.length - 1) (le_refl _) (Nat.zero_le _) hmono
  have hr0 : bsearch lut 0 0 (lut.length - 1) = 0 := by
    by_contra hne0
    have hpos : 0 < bsearch lut 0 0 (lut.length - 1) :=
      Nat.pos_of_ne_zero hne0
    have hlt := hb3 0 (le_refl 0) hpos
    rw [show lutDist lut 0 = 0 from rfl] at hlt
    exact absurd hlt (lt_irrefl 0)
  rw [hr0, if_pos rfl]
  exact goPrims_getD_zero c1 c1 c2 cr

theorem lut_t_zero (n : ℕ) (prims : List Primitive) :
    lutT ((0, 0) :: (phase2 n prims 0 0).1) 0 = 0 := rfl

theorem eval_floor (n : ℕ) (hn : n ≠ 0) (prims : List Primitive)
    (hch : List.Chain' chainR prims) (hne : prims ≠ []) (j : ℕ)
    (hj : j ≤ n * prims.length) :
    (prims.getD
        (if (prims.length : ℤ) ≤ ⌊lutT ((0, 0) :: (phase2 n prims 0 0).1) j⌋
          then (prims.length : ℤ) - 1
          else ⌊lutT ((0, 0) :: (phase2 n prims 0 0).1) j⌋).toNat
        default).eval
      (if (prims.length : ℤ) ≤ ⌊lutT ((0, 0) :: (phase2 n prims 0 0).1) j⌋
        then 1
        else lutT ((0, 0) :: (phase2 n prims 0 0).1) j -
          (⌊lutT ((0, 0) :: (phase2 n prims 0 0).1) j⌋ : ℝ)) =
      sampleAt prims n j := by
  have hnpos : 0 < n := Nat.pos_of_ne_zero hn
  have hlenpos : 1 ≤ prims.length := List.length_pos.mpr hne
  rcases Nat.eq_zero_or_pos j with rfl | hj0
  · rw [lut_t_zero, Int.floor_zero]
    have hnotle : ¬ ((prims.length : ℤ) ≤ 0) := by omega
    rw [if_neg hnotle, if_neg hnotle, sampleAt_zero]
    norm_num
  · obtain ⟨i, rfl⟩ : ∃ i, j = i + 1 := ⟨j - 1, by omega⟩
    have hi : i < n * prims.length := by omega
    rw [lut_t_succ n hn prims i hi, sampleAt_succ]
    obtain ⟨m, q, hm, hq', hqlt, hmlt⟩ :
        ∃ m q, i / n = m ∧ i % n = q ∧ q < n ∧ m < prims.length :=
      ⟨i / n, i % n, rfl, rfl, Nat.mod_lt _ hnpos, Nat.div_lt_of_lt_mul hi⟩
    rw [hm, hq']
    by_cases hq : q + 1 = n
    · have hcast : ((q + 1 : ℕ) : ℝ) / (n : ℝ) = 1 := by
        rw [hq, div_self]
        exact_mod_cast hn
      rw [hcast]
      have hflr : ⌊((m : ℕ) : ℝ) + 1⌋ = ((m : ℕ) : ℤ) + 1 := by
        rw [Int.floor_add_one, Int.floor_natCast]
      rw [hflr]
      by_cases hend : m + 1 = prims.length
      · have hle : (prims.length : ℤ) ≤ ((m : ℕ) : ℤ) + 1 := by omega
        rw [if_pos hle, if_pos hle]
        have htn : ((prims.length : ℤ) - 1).toNat = m := by omega
        rw [htn]
      · have hnle : ¬ ((prims.length : ℤ) ≤ ((m : ℕ) : ℤ) + 1) := by omega
        rw [if_neg hnle, if_neg hnle]
        have htn : (((m : ℕ) : ℤ) + 1).toNat = m + 1 := by omega
        have hloc : ((m : ℕ) : ℝ) + 1 - ((((m : ℕ) : ℤ) + 1 : ℤ) : ℝ) = 0 := by
          rw [Int.cast_add, Int.cast_natCast, Int.cast_one]
          ring
        rw [htn, hloc]
        have hglue := chainR_getD prims hch m (by omega)
        rw [← hglue]
    · have hfrac0 : (0 : ℝ) < ((q + 1 : ℕ) : ℝ) / (n : ℝ) := by
        apply div_pos
        · exact_mod_cast Nat.succ_pos q
        · exact_mod_cast hnpos
      have hfrac1 : ((q + 1 : ℕ) : ℝ) / (n : ℝ) < 1 := by
        rw [div_lt_one (by exact_mod_cast hnpos)]
        exact_mod_cast (show q + 1 < n by omega)
      have hflr : ⌊((m : ℕ) : ℝ) + ((q + 1 : ℕ) : ℝ) / (n : ℝ)⌋ =
          ((m : ℕ) : ℤ) := by
        rw [Int.floor_eq_iff]
        constructor
        · rw [Int.cast_natCast]
          linarith
        · rw [Int.cast_natCast]
          linarith
      rw [hflr]
      have hnle : ¬ ((prims.length : ℤ) ≤ ((m : ℕ) : ℤ)) := by omega
      rw [if_neg hnle, if_neg hnle]
      have htn : ((m : ℕ) : ℤ).toNat = m := by omega
      have hloc : ((m : ℕ) : ℝ) + ((q + 1 : ℕ) : ℝ) / (n : ℝ) -
          (((m : ℕ) : ℤ) : ℝ) = ((q + 1 : ℕ) : ℝ) / (n : ℝ) := by
        rw [Int.cast_natCast]
        ring
      rw [htn, hloc]

theorem sampler_at_one (c1 c2 : Camera) (cr : List Camera)
    (hx0 : 0 ≤ ((c1 :: c2 :: cr).getLastD default).x)
    (hx1 : ((c1 :: c2 :: cr).getLastD default).x ≤ 1)
    (hy0 : 0 ≤ ((c1 :: c2 :: cr).getLastD default).y)
    (hy1 : ((c1 :: c2 :: cr).getLastD default).y ≤ 1) :
    evalAtProgress (goPrims c1 (c1 :: c2 :: cr))
      ((0, 0) :: (phase2 SAMPLES_PER_PRIM (goPrims c1 (c1 :: c2 :: cr)) 0 0).1)
      (phase2 SAMPLES_PER_PRIM (goPrims c1 (c1 :: c2 :: cr)) 0 0).2.1 1 =
      (c1 :: c2 :: cr).getLastD default := by
  have hn : SAMPLES_PER_PRIM ≠ 0 := by decide
  set prims := goPrims c1 (c1 :: c2 :: cr) with hprims
  have hne : prims ≠ [] := goPrims_ne_nil c1 c1 c2 cr
  have hch : List.Chain' chainR prims := goPrims_chain c1 c1 c2 cr
  set lut := ((0, 0) :: (phase2 SAMPLES_PER_PRIM prims 0 0).1 :
    List (ℝ × ℝ)) with hlut
  set total := (phase2 SAMPLES_PER_PRIM prims 0 0).2.1 with htotal
  have hlen : lut.length - 1 = SAMPLES_PER_PRIM * prims.length := by
    rw [hlut, List.length_cons, phase2_lut_length]
    omega
  have hMpos : 1 ≤ SAMPLES_PER_PRIM * prims.length :=
    Nat.mul_pos (by decide) (List.length_pos.mpr hne)
  have hmono : ∀ i j, 0 ≤ i → i ≤ j → j ≤ lut.length - 1 →
      lutDist lut i ≤ lutDist lut j := by
    intro i j _ hij hj
    rw [hlen] at hj
    exact lut_dist_mono _ hn prims hch i j hij hj
  have hlast : lutDist lut (SAMPLES_PER_PRIM * prims.length) = total :=
    lut_dist_last _ hn prims hne
  simp only [evalAtProgress]
  rw [show min (1 : ℝ) (max 0 1) = 1 by norm_num, one_mul]
  obtain ⟨hb1, hb2, hb3, hb4⟩ := bsearch_spec lut total (lut.length - 1) 0
    (lut.length - 1) (le_refl _) (Nat.zero_le _) hmono
  set r := bsearch lut total 0 (lut.length - 1) with hrdef
  have hrM : r ≤ SAMPLES_PER_PRIM * prims.length := by
    rw [← hlen]
    exact hb2
  have hp1 : lutDist lut r = total := by
    rcases hb4 with h | h
    · refine le_antisymm ?_ h
      have hmr := hmono r (lut.length - 1) (Nat.zero_le _) hb2 (le_refl _)
      rw [hlen] at hmr
      rw [hlast] at hmr
      exact hmr
    · rw [h, hlen, hlast]
  by_cases hrz : r = 0
  · rw [if_pos hrz]
    have htot0 : total = 0 := by
      rw [hrz] at hp1
      rw [show lutDist lut 0 = 0 from rfl] at hp1
      exact hp1.symm
    have hflat : sampleAt prims SAMPLES_PER_PRIM 0 =
        sampleAt prims SAMPLES_PER_PRIM (SAMPLES_PER_PRIM * prims.length) := by
      refine lut_flat _ hn prims hch 0 _ (Nat.zero_le _) (le_refl _) ?_
      show lutDist lut 0 = lutDist lut (SAMPLES_PER_PRIM * prims.length)
      rw [show lutDist lut 0 = 0 from rfl, hlast, htot0]
    calc (prims.getD 0 default).eval 0
        = sampleAt prims SAMPLES_PER_PRIM 0 := (sampleAt_zero prims _).symm
      _ = sampleAt prims SAMPLES_PER_PRIM (SAMPLES_PER_PRIM * prims.length) :=
          hflat
      _ = (prims.getLastD default).eval 1 := sampleAt_last _ hn prims hne
      _ = (c1 :: c2 :: cr).getLastD default := by
          rw [hprims]
          exact goPrims_getLastD c1 c1 c2 cr default default
  · rw [if_neg hrz]
    have hp1' : (lut.getD r (0, 0)).2 = total := hp1
    by_cases hA : (lut.getD r (0, 0)).2 - (lut.getD (r - 1) (0, 0)).2 = 0
    · rw [if_pos hA]
      have hp0 : total - (lut.getD (r - 1) (0, 0)).2 = 0 := by
        rw [← hp1']
        linarith
      rw [hp0, zero_div, zero_mul, add_zero]
      rw [show (lut.getD (r - 1) (0, 0)).1 = lutT lut (r - 1) from rfl]
      rw [hlut]
      rw [eval_floor SAMPLES_PER_PRIM hn prims hch hne (r - 1) (by omega)]
      have hflat : sampleAt prims SAMPLES_PER_PRIM (r - 1) =
          sampleAt prims SAMPLES_PER_PRIM
            (SAMPLES_PER_PRIM * prims.length) := by
        refine lut_flat _ hn prims hch (r - 1) _ (by omega) (le_refl _) ?_
        show lutDist lut (r - 1) = lutDist lut (SAMPLES_PER_PRIM * prims.length)
        have hp0d : lutDist lut (r - 1) = total := by
          show (lut.getD (r - 1) (0, 0)).2 = total
          linarith
        rw [hp0d, hlast]
      rw [hflat, sampleAt_last _ hn prims hne, hprims,
        goPrims_getLastD c1 c1 c2 cr default default]
      rw [clamp01_of_mem _ hx0 hx1, clamp01_of_mem _ hy0 hy1]
    · rw [if_neg hA]
      have hnum : total - (lut.getD (r - 1) (0, 0)).2 =
          (lut.getD r (0, 0)).2 - (lut.getD (r - 1) (0, 0)).2 := by
        rw [hp1']
      rw [hnum, div_self hA, one_mul]
      have hgt : (lut.getD (r - 1) (0, 0)).1 +
          ((lut.getD r (0, 0)).1 - (lut.getD (r - 1) (0, 0)).1) =
          lutT lut r := by
        have h1 : (lut.getD (r - 1) (0, 0)).1 +
            ((lut.getD r (0, 0)).1 - (lut.getD (r - 1) (0, 0)).1) =
            (lut.getD r (0, 0)).1 := by ring
        rw [h1]
        rfl
      rw [hgt, hlut]
      rw [eval_floor SAMPLES_PER_PRIM hn prims hch hne r hrM]
      have hflat : sampleAt prims SAMPLES_PER_PRIM r =
          sampleAt prims SAMPLES_PER_PRIM
            (SAMPLES_PER_PRIM * prims.length) := by
        refine lut_flat _ hn prims hch r _ hrM (le_refl _) ?_
        show lutDist lut r = lutDist lut (SAMPLES_PER_PRIM * prims.length)
        rw [hp1, hlast]
      rw [hflat, sampleAt_last _ hn prims hne, hprims,
        goPrims_getLastD c1 c1 c2 cr default default]
      rw [clamp01_of_mem _ hx0 hx1, clamp01_of_mem _ hy0 hy1]

theorem getLastD_mem {α : Type} (a : α) (l : List α) (d : α) :
    (a :: l).getLastD d ∈ a :: l := by
  induction l generalizing a d with
  | nil => simp [List.getLastD]
  | cons b l ih =>
    rw [List.getLastD_cons]
    exact List.mem_cons_of_mem a (ih b a)

theorem getLast?_eq_getLastD {α : Type} (a : α) (l : List α) :
    ∀ d : α, (a :: l).getLast? = some ((a :: l).getLastD d) := by
  induction l generalizing a with
  | nil =>
    intro d
    simp [List.getLastD]
  | cons b l ih =>
    intro d
    rw [List.getLast?_cons_cons, List.getLastD_cons]
    exact ih b a

/-- `cameraAtProgress` of a two-or-more-keyframe sampler, as `evalAtProgress`
applied to the built primitives and LUT. -/
theorem buildSampler_eval (k1 k2 : RawCam) (rest : List RawCam) (p : ℝ) :
    (buildSampler (k1 :: k2 :: rest)).cameraAtProgress p =
      some (evalAtProgress
        (goPrims (resolveCameraMacros k1)
          (resolveCameraMacros k1 :: resolveCameraMacros k2 ::
            rest.map resolveCameraMacros))
        ((0, 0) :: (phase2 SAMPLES_PER_PRIM (goPrims (resolveCameraMacros k1)
          (resolveCameraMacros k1 :: resolveCameraMacros k2 ::
            rest.map resolveCameraMacros)) 0 0).1)
        (phase2 SAMPLES_PER_PRIM (goPrims (resolveCameraMacros k1)
          (resolveCameraMacros k1 :: resolveCameraMacros k2 ::
            rest.map resolveCameraMacros)) 0 0).2.1 p) := rfl

/-- C1: for a path of at least two keyframes, the sampler built by
`buildSampler` returns the first macro-resolved keyframe at progress `0` and
the last macro-resolved keyframe at progress `1`. -/
theorem sampler_endpoints (kfs : List RawCam) (h : 2 ≤ kfs.length) :
    (buildSampler kfs).cameraAtProgress 0 =
        (kfs.map resolveCameraMacros).head? ∧
      (buildSampler kfs).cameraAtProgress 1 =
        (kfs.map resolveCameraMacros).getLast? := by
  rcases kfs with _ | ⟨k1, _ | ⟨k2, rest⟩⟩
  · simp at h
  · simp at h
  have hmem : (resolveCameraMacros k1 :: resolveCameraMacros k2 ::
        rest.map resolveCameraMacros).getLastD default ∈
      resolveCameraMacros k1 :: resolveCameraMacros k2 ::
        rest.map resolveCameraMacros := getLastD_mem _ _ _
  have hres : ∀ c ∈ resolveCameraMacros k1 :: resolveCameraMacros k2 ::
      rest.map resolveCameraMacros,
      0 ≤ c.x ∧ c.x ≤ 1 ∧ 0 ≤ c.y ∧ c.y ≤ 1 := by
    intro c hc
    rcases List.mem_cons.mp hc with rfl | hc
    · exact resolveCameraMacros_mem k1
    rcases List.mem_cons.mp hc with rfl | hc
    · exact resolveCameraMacros_mem k2
    rcases List.mem_map.mp hc with ⟨k, _, rfl⟩
    exact resolveCameraMacros_mem k
  obtain ⟨hx0, hx1, hy0, hy1⟩ := hres _ hmem
  constructor
  · rw [buildSampler_eval k1 k2 rest 0,
      sampler_at_zero (resolveCameraMacros k1) (resolveCameraMacros k2)
        (rest.map resolveCameraMacros),
      List.map_cons, List.map_cons, List.head?_cons]
  · rw [buildSampler_eval k1 k2 rest 1,
      sampler_at_one (resolveCameraMacros k1) (resolveCameraMacros k2)
        (rest.map resolveCameraMacros) hx0 hx1 hy0 hy1,
      List.map_cons, List.map_cons]
    exact (getLast?_eq_getLastD _ _ default).symm

/-- Witness for C1 on a concrete two-keyframe path. -/
theorem sampler_endpoints_witness :
    2 ≤ ([rawKA, rawKB] : List RawCam).length ∧
      ((buildSampler [rawKA, rawKB]).cameraAtProgress 0 =
          (([rawKA, rawKB] : List RawCam).map resolveCameraMacros).head? ∧
        (buildSampler [rawKA, rawKB]).cameraAtProgress 1 =
          (([rawKA, rawKB] : List RawCam).map resolveCameraMacros).getLast?) :=
  ⟨by decide, sampler_endpoints [rawKA, rawKB] (by decide)⟩

/-- Witness for C10 on a concrete two-keyframe path. -/
theorem sampler_stops_witness :
    2 ≤ ([rawKA, rawKB] : List RawCam).length ∧
      ((buildSampler [rawKA, rawKB]).stops.length =
          ([rawKA, rawKB] : List RawCam).length ∧
        (buildSampler [rawKA, rawKB]).stops.head? = some 0 ∧
        List.Chain' (· ≤ ·) (buildSampler [rawKA, rawKB]).stops ∧
        (buildSampler [rawKA, rawKB]).stops.getLast? =
          some (buildSampler [rawKA, rawKB]).totalLength) :=
  ⟨by decide, sampler_stops [rawKA, rawKB] (by decide)⟩

/-! ### Request-manager lemmas (C3, C4) -/

theorem laneInv_initRM : laneInv initRM := by
  refine ⟨le_refl 0, ?_, le_refl 0, ?_⟩ <;> decide

theorem laneInv_dispatchM (req : Request) (s : RMState) (h : laneInv s) :
    laneInv (dispatchM req s) := by
  cases hr : req.lane <;> simp [dispatchM, hr, laneInv] at h ⊢ <;> exact h

theorem laneInv_incCount (lane : Lane) (s : RMState) (h : laneInv s)
    (hcap : s.count lane < limits lane) : laneInv (incCount lane s) := by
  cases lane <;>
    simp [incCount, RMState.count, limits, laneInv] at h hcap ⊢ <;> omega

theorem laneInv_decCountGuard (lane : Lane) (s : RMState) (h : laneInv s) :
    laneInv (decCountGuard lane s) := by
  obtain ⟨h1, h2, h3, h4⟩ := h
  cases lane
  · show laneInv
      (if 0 < s.liveCount then { s with liveCount := s.liveCount - 1 } else s)
    by_cases hc : 0 < s.liveCount
    · rw [if_pos hc]
      exact ⟨show (0 : ℤ) ≤ s.liveCount - 1 by omega,
        show s.liveCount - 1 ≤ 1 by omega, h3, h4⟩
    · rw [if_neg hc]
      exact ⟨h1, h2, h3, h4⟩
  · show laneInv
      (if 0 < s.workerCount then { s with workerCount := s.workerCount - 1 }
        else s)
    by_cases hc : 0 < s.workerCount
    · rw [if_pos hc]
      exact ⟨h1, h2, show (0 : ℤ) ≤ s.workerCount - 1 by omega,
        show s.workerCount - 1 ≤ 6 by omega⟩
    · rw [if_neg hc]
      exact ⟨h1, h2, h3, h4⟩

theorem laneInv_processGo (l : List Request) (s : RMState) (h : laneInv s) :
    laneInv (processGo s l) := by
  induction l generalizing s with
  | nil => exact h
  | cons req rest ih =>
    unfold processGo
    split
    · exact ih _ h
    · split
      · rename_i hcap
        refine ih _ (laneInv_dispatchM _ _ (laneInv_incCount _ _ ?_ hcap))
        exact h
      · exact ih _ h

theorem laneInv_processM (s : RMState) (h : laneInv s) :
    laneInv (processM s) :=
  laneInv_processGo _ _ h

theorem laneInv_requestM (id : String) (lane : Lane) (opts : ReqOptions)
    (s : RMState) (h : laneInv s) : laneInv (requestM id lane opts s) := by
  unfold requestM
  split
  · exact h
  · split
    · exact h
    · exact laneInv_processM _ h

theorem laneInv_completeM (id : String) (success : Bool) (s : RMState)
    (h : laneInv s) : laneInv (completeM id success s) := by
  unfold completeM
  split
  · exact laneInv_processM _ h
  · refine laneInv_processM _ ?_
    split
    · exact laneInv_decCountGuard _ _ h
    · exact laneInv_decCountGuard _ _ h

theorem laneInv_stepRM (s : RMState) (e : RMEvent) (h : laneInv s) :
    laneInv (stepRM s e) := by
  cases e with
  | request id lane opts => exact laneInv_requestM id lane opts s h
  | processEv sorted =>
    show laneInv (processM _)
    refine laneInv_processM _ ?_
    split <;> exact h
  | complete id success => exact laneInv_completeM id success s h
  | prune valid => exact h

theorem laneInv_runRM_aux (evs : List RMEvent) (s : RMState) (h : laneInv s) :
    laneInv (evs.foldl stepRM s) := by
  induction evs generalizing s with
  | nil => exact h
  | cons e rest ih => exact ih _ (laneInv_stepRM s e h)

/-- C3: in every state reachable by any sequence of request, process,
complete and prune events, the live lane holds at most one in-flight
request, the static (worker) lane at most six, and neither count is ever
negative. -/
theorem rm_lane_limits (evs : List RMEvent) :
    0 ≤ (runRM evs).liveCount ∧ (runRM evs).liveCount ≤ 1 ∧
      0 ≤ (runRM evs).workerCount ∧ (runRM evs).workerCount ≤ 6 :=
  laneInv_runRM_aux evs initRM laneInv_initRM

/-- C4: after a live request fails with 503 or a network error, the handler
removes every queued copy of the id and, when the retry timer (armed with
`retryDelayMs`, defaulting to 200 ms) fires, re-enqueues the request at the
front of the queue with its options preserved; the re-enqueued copy is then
the only one in the queue. -/
theorem live_retry_front (req : Request) (s : RMState) :
    (liveRetryFire req (liveRetrySchedule req s)).queue.head? =
        some (retryRequest req) ∧
      (retryRequest req).options = req.options ∧
      (liveRetryFire req (liveRetrySchedule req s)).queue.countP
          (fun r => r.id = req.id) = 1 ∧
      retryDelayOf req.options = req.options.retryDelayMs.getD 200 ∧
      retryDelayOf ⟨none⟩ = 200 := by
  refine ⟨rfl, rfl, ?_, rfl, rfl⟩
  unfold liveRetryFire liveRetrySchedule
  rw [List.countP_cons]
  have h0 : ((completeM req.id false s).queue.filter
      (fun r => ¬(r.id = req.id))).countP (fun r => r.id = req.id) = 0 := by
    rw [List.countP_eq_zero]
    intro r hr
    have hmem := List.of_mem_filter hr
    simpa using hmem
  simp [h0, retryRequest]

/-! ### Render-loop target-tile lemmas (C7) -/

theorem mem_updateLayer (cam : Camera) (viewW viewH : ℝ) (liveRender : Bool)
    (manifest : List (ℤ × ℤ × ℤ)) (level : ℤ) (opacity : ℝ)
    (acc : List TargetEntry) (e : TargetEntry)
    (h : e ∈ updateLayer cam viewW viewH liveRender manifest level opacity acc) :
    e ∈ acc ∨ (e.level = level ∧ e.opacity = opacity ∧ 0.001 < opacity) := by
  unfold updateLayer at h
  by_cases hop : opacity ≤ 0.001
  · rw [if_pos hop] at h
    exact Or.inl h
  · rw [if_neg hop] at h
    have hop' : 0.001 < opacity := not_le.mp hop
    revert h
    generalize (getVisibleTilesForLevel cam level viewW viewH
      LOGICAL_TILE_SIZE).tiles = ts
    induction ts generalizing acc with
    | nil => exact Or.inl
    | cons t tl ih =>
      intro h
      rw [List.foldl_cons] at h
      rcases ih _ h with hmem | hprops
      · unfold layerStep at hmem
        split at hmem
        · exact Or.inl hmem
        · rcases List.mem_append.mp hmem with h' | h'
          · exact Or.inl h'
          · rcases List.mem_cons.mp h' with rfl | h''
            · exact Or.inr ⟨rfl, rfl, hop'⟩
            · cases h''
      · exact Or.inr hprops

/-- C7: in every frame's target tile set, base-level tiles carry opacity
`1.0`, tiles at level `baseLevel + 1` carry opacity
`globalLevel - baseLevel`, and no tile at level `baseLevel + 1` appears at
all unless `globalLevel - baseLevel > 0.001`. -/
theorem targetTiles_opacity (cam : Camera) (viewW viewH : ℝ)
    (liveRender : Bool) (manifest : List (ℤ × ℤ × ℤ)) :
    (computeTargetTiles cam viewW viewH liveRender manifest).Forall
      (fun e =>
        (e.level ≠ ⌊cam.globalLevel⌋ ∨ e.opacity = 1) ∧
        (e.level ≠ ⌊cam.globalLevel⌋ + 1 ∨
          e.opacity = cam.globalLevel - (⌊cam.globalLevel⌋ : ℝ)) ∧
        (e.level ≠ ⌊cam.globalLevel⌋ + 1 ∨
          0.001 < cam.globalLevel - (⌊cam.globalLevel⌋ : ℝ))) := by
  rw [List.forall_iff_forall_mem]
  intro e he
  unfold computeTargetTiles at he
  rcases mem_updateLayer _ _ _ _ _ _ _ _ _ he with h2 | ⟨hl, ho, hgt⟩
  · rcases mem_updateLayer _ _ _ _ _ _ _ _ _ h2 with h1 | ⟨hl, ho, _⟩
    · have h0 : e ∈ updateLayer cam viewW viewH liveRender manifest
          (⌊cam.globalLevel⌋ - 1) 1 [] ∨ e ∈ ([] : List TargetEntry) := by
        split at h1
        · exact Or.inl h1
        · exact Or.inr h1
      rcases h0 with h1' | h1'
      · rcases mem_updateLayer _ _ _ _ _ _ _ _ _ h1' with h1'' | ⟨hl, ho, _⟩
        · cases h1''
        · refine ⟨Or.inl ?_, Or.inl ?_, Or.inl ?_⟩ <;> omega
      · cases h1'
    · exact ⟨Or.inr ho, Or.inl (by omega), Or.inl (by omega)⟩
  · exact ⟨Or.inl (by omega), Or.inr ho, Or.inr hgt⟩

/-! ### Precision-policy lemmas (C6) -/

theorem maxLevel_step_eq_max (m v : ℝ) : (if m < v then v else m) = max m v := by
  rcases lt_or_le m v with h | h
  · rw [if_pos h, max_eq_right h.le]
  · rw [if_neg (not_lt.mpr h), max_eq_left h]

theorem le_computeMaxLevel_foldl (l : List RawCam) (init : ℝ) :
    init ≤ l.foldl (fun m kf => if m < kfLevel kf then kfLevel kf else m) init := by
  induction l generalizing init with
  | nil => exact le_refl _
  | cons kf tl ih =>
    refine le_trans ?_ (ih _)
    show init ≤ if init < kfLevel kf then kfLevel kf else init
    rw [maxLevel_step_eq_max]
    exact le_max_left _ _

theorem mem_le_computeMaxLevel_foldl (l : List RawCam) (init : ℝ) (kf : RawCam)
    (h : kf ∈ l) :
    kfLevel kf ≤ l.foldl (fun m kf => if m < kfLevel kf then kfLevel kf else m) init := by
  induction l generalizing init with
  | nil => cases h
  | cons a tl ih =>
    rcases List.mem_cons.mp h with rfl | h'
    · refine le_trans ?_ (le_computeMaxLevel_foldl tl _)
      show kfLevel kf ≤ if init < kfLevel kf then kfLevel kf else init
      rw [maxLevel_step_eq_max]
      exact le_max_right _ _
    · exact ih _ h'

theorem computeMaxLevel_foldl_cases (l : List RawCam) (init : ℝ) :
    l.foldl (fun m kf => if m < kfLevel kf then kfLevel kf else m) init = init ∨
      ∃ kf ∈ l,
        l.foldl (fun m kf => if m < kfLevel kf then kfLevel kf else m) init =
          kfLevel kf := by
  induction l generalizing init with
  | nil => exact Or.inl rfl
  | cons a tl ih =>
    simp only [List.foldl_cons]
    rcases ih (if init < kfLevel a then kfLevel a else init) with h | ⟨kf, hkf, h⟩
    · rw [h]
      split
      · exact Or.inr ⟨a, List.mem_cons_self a tl, rfl⟩
      · exact Or.inl rfl
    · exact Or.inr ⟨kf, List.mem_cons_of_mem _ hkf, h⟩

/-- C6 (amended): a dataset load always sets the working precision to
`max(50, ceil(L_max * 0.35 + 20))` where `L_max` is the maximum of the
configured `max_level` (default 20) and the levels of the path keyframes —
independent of any precision established by earlier loads. -/
theorem precision_on_each_load (cfgs : List DatasetCfg) (cfg : DatasetCfg)
    (init : ℤ) :
    precisionAfterLoads (cfgs ++ [cfg]) init =
        max 50 ⌈computeMaxLevel cfg * 0.35 + 20⌉ ∧
      cfg.maxLevelCfg.getD 20 ≤ computeMaxLevel cfg ∧
      (∀ kf ∈ cfg.keyframes, kfLevel kf ≤ computeMaxLevel cfg) ∧
      (computeMaxLevel cfg = cfg.maxLevelCfg.getD 20 ∨
        ∃ kf ∈ cfg.keyframes, computeMaxLevel cfg = kfLevel kf) := by
  refine ⟨?_, ?_, ?_, ?_⟩
  · simp [precisionAfterLoads, List.foldl_append, neededPrecision]
  · exact le_computeMaxLevel_foldl _ _
  · exact fun kf hkf => mem_le_computeMaxLevel_foldl _ _ kf hkf
  · exact computeMaxLevel_foldl_cases _ _

/-- C6 counterexample: loading a deep dataset (`max_level = 200`, precision
90) followed by a shallow one (`max_level = 20`, precision 50) makes the
working precision decrease across successive loads, refuting the claimed
monotone growth. -/
theorem precision_not_monotone :
    precisionAfterLoads [cfgDeep] 50 = 90 ∧
      precisionAfterLoads [cfgDeep, cfgShallow] 50 = 50 ∧
      precisionAfterLoads [cfgDeep, cfgShallow] 50 <
        precisionAfterLoads [cfgDeep] 50 := by
  have h200 : (⌈(200 : ℝ) * 0.35 + 20⌉ : ℤ) = 90 := by
    rw [show (200 : ℝ) * 0.35 + 20 = ((90 : ℤ) : ℝ) by norm_num, Int.ceil_intCast]
  have h20 : (⌈(20 : ℝ) * 0.35 + 20⌉ : ℤ) = 27 := by
    rw [show (20 : ℝ) * 0.35 + 20 = ((27 : ℤ) : ℝ) by norm_num, Int.ceil_intCast]
  have hdeep : neededPrecision cfgDeep = 90 := by
    simp [neededPrecision, computeMaxLevel, cfgDeep, h200]
  have hshallow : neededPrecision cfgShallow = 50 := by
    simp [neededPrecision, computeMaxLevel, cfgShallow, h20]
  refine ⟨?_, ?_, ?_⟩ <;>
    simp [precisionAfterLoads, hdeep, hshallow]

end Quads
